import Mathlib

/-!
# Verification of the xDAN-smartDoc-dolphin document pipeline

Shallow embedding of the document element extraction and assembly pipeline:
coordinate mapping (`src/utils/image_utils.py`), layout parsing and block
merging (`src/utils/parsing_utils.py`), the batch dispatcher and element
pipeline of the two engine variants (`src/engines/async_dolphin.py`,
`src/api/enhanced_main.py`), and the result assemblers.

Python floats are embedded as `ℚ`, Python ints as `ℤ` (or `ℕ` for
reading-order values, which pydantic constrains to be nonnegative),
Python's fallible code paths as explicit case analysis, and the external
batch-recognition call as an oracle returning `Except`.  Python's stable
`list.sort` is embedded as `List.insertionSort`, which is stable.
-/

namespace SmartDoc

/- The kernel can reduce the rational-number operations, but they are
marked irreducible for the elaborator; make them semireducible here so
that concrete runs of the embedded functions can be checked by
`decide`. -/
attribute [local semireducible] Rat.mul Rat.add Rat.sub Rat.inv Rat.ofScientific

/-- Python `int(x)` truncates toward zero. -/
def pyTrunc (q : ℚ) : ℤ := if q < 0 then -⌊-q⌋ else ⌊q⌋

/-- `ImageDimensions` from `src/utils/image_utils.py` (all fields Python ints). -/
structure ImageDimensions where
  original_w : ℤ
  original_h : ℤ
  padded_w : ℤ
  padded_h : ℤ
deriving DecidableEq, Repr

/-- Result record of `process_coordinates`: the padded-space box, the
original-space box, and the returned `coords` (the new previous box). -/
structure Coords8 where
  px1 : ℤ
  py1 : ℤ
  px2 : ℤ
  py2 : ℤ
  ox1 : ℤ
  oy1 : ℤ
  ox2 : ℤ
  oy2 : ℤ
  prevBox : List ℚ
deriving DecidableEq, Repr

/-- Lines 91-92 of `src/utils/image_utils.py`: clamp a lower padded
coordinate into `[0, dim - 1]` (`max(0, min(t, dim - 1))`). -/
def clamp_low (t dim : ℤ) : ℤ := max 0 (min t (dim - 1))

/-- Lines 93-94 of `src/utils/image_utils.py`: clamp an upper padded
coordinate into `[low + 1, dim]` (`max(low + 1, min(t, dim))`). -/
def clamp_high (low t dim : ℤ) : ℤ := max (low + 1) (min t dim)

/-- One axis of `map_to_original_coordinates` (lines 124-133 of
`src/utils/image_utils.py`): subtract the padding offset, clamp the lower
bound to `max(0, ·)` and the upper bound to `min(dim, ·)`, and if the
result is degenerate force the upper bound to `min(lower + 1, dim)`. -/
def map_axis (low high pad dim : ℤ) : ℤ × ℤ :=
  let o1 := max 0 (low - pad)
  let o2 := min dim (high - pad)
  (o1, if o2 ≤ o1 then min (o1 + 1) dim else o2)

/-- `map_to_original_coordinates(x1, y1, x2, y2, dims)` from
`src/utils/image_utils.py` lines 107-135.  The padding offsets use
Python's floor division `//` (`Int.fdiv`).  The `try` body performs only
integer arithmetic, so its `except` branch is unreachable in the
embedding. -/
def map_to_original_coordinates (x1 y1 x2 y2 : ℤ) (dims : ImageDimensions) :
    ℤ × ℤ × ℤ × ℤ :=
  let pad_h := (dims.padded_h - dims.original_h).fdiv 2
  let pad_w := (dims.padded_w - dims.original_w).fdiv 2
  match map_axis x1 x2 pad_w dims.original_w, map_axis y1 y2 pad_h dims.original_h with
  | (ox1, ox2), (oy1, oy2) => (ox1, oy1, ox2, oy2)

/-- `process_coordinates(coords, padded_image, dims, previous_box)` from
`src/utils/image_utils.py` lines 65-104.  `padded_image` and
`previous_box` do not influence the result and are omitted.  The `try`
body reads `coords[0] .. coords[3]`; a list with fewer than four entries
raises `IndexError`, caught by the `except` branch which returns the safe
default `(0, 0, 100, 100, 0, 0, 100, 100, coords)`. -/
def process_coordinates (coords : List ℚ) (dims : ImageDimensions) : Coords8 :=
  match coords with
  | c0 :: c1 :: c2 :: c3 :: _ =>
    let x1 := clamp_low (pyTrunc (c0 * (dims.padded_w : ℚ))) dims.padded_w
    let y1 := clamp_low (pyTrunc (c1 * (dims.padded_h : ℚ))) dims.padded_h
    let x2 := clamp_high x1 (pyTrunc (c2 * (dims.padded_w : ℚ))) dims.padded_w
    let y2 := clamp_high y1 (pyTrunc (c3 * (dims.padded_h : ℚ))) dims.padded_h
    match map_to_original_coordinates x1 y1 x2 y2 dims with
    | (ox1, oy1, ox2, oy2) => ⟨x1, y1, x2, y2, ox1, oy1, ox2, oy2, coords⟩
  | _ => ⟨0, 0, 100, 100, 0, 0, 100, 100, coords⟩

lemma lt_clamp_high (low t dim : ℤ) : low < clamp_high low t dim :=
  lt_of_lt_of_le (lt_add_one low) (le_max_left _ _)

lemma map_axis_lt {low high pad dim : ℤ} (h : (map_axis low high pad dim).1 < dim) :
    (map_axis low high pad dim).1 < (map_axis low high pad dim).2 := by
  simp only [map_axis] at h ⊢
  simp only [Int.max_def, Int.min_def] at h ⊢
  split_ifs at h ⊢ <;> omega

/-- Unfolding equation for `process_coordinates` on a list with at least
four coordinates, in terms of the clamping and axis-mapping helpers. -/
lemma process_coordinates_cons (c0 c1 c2 c3 : ℚ) (rest : List ℚ)
    (dims : ImageDimensions) :
    process_coordinates (c0 :: c1 :: c2 :: c3 :: rest) dims =
      { px1 := clamp_low (pyTrunc (c0 * (dims.padded_w : ℚ))) dims.padded_w
        py1 := clamp_low (pyTrunc (c1 * (dims.padded_h : ℚ))) dims.padded_h
        px2 := clamp_high (clamp_low (pyTrunc (c0 * (dims.padded_w : ℚ))) dims.padded_w)
          (pyTrunc (c2 * (dims.padded_w : ℚ))) dims.padded_w
        py2 := clamp_high (clamp_low (pyTrunc (c1 * (dims.padded_h : ℚ))) dims.padded_h)
          (pyTrunc (c3 * (dims.padded_h : ℚ))) dims.padded_h
        ox1 := (map_axis (clamp_low (pyTrunc (c0 * (dims.padded_w : ℚ))) dims.padded_w)
          (clamp_high (clamp_low (pyTrunc (c0 * (dims.padded_w : ℚ))) dims.padded_w)
            (pyTrunc (c2 * (dims.padded_w : ℚ))) dims.padded_w)
          ((dims.padded_w - dims.original_w).fdiv 2) dims.original_w).1
        oy1 := (map_axis (clamp_low (pyTrunc (c1 * (dims.padded_h : ℚ))) dims.padded_h)
          (clamp_high (clamp_low (pyTrunc (c1 * (dims.padded_h : ℚ))) dims.padded_h)
            (pyTrunc (c3 * (dims.padded_h : ℚ))) dims.padded_h)
          ((dims.padded_h - dims.original_h).fdiv 2) dims.original_h).1
        ox2 := (map_axis (clamp_low (pyTrunc (c0 * (dims.padded_w : ℚ))) dims.padded_w)
          (clamp_high (clamp_low (pyTrunc (c0 * (dims.padded_w : ℚ))) dims.padded_w)
            (pyTrunc (c2 * (dims.padded_w : ℚ))) dims.padded_w)
          ((dims.padded_w - dims.original_w).fdiv 2) dims.original_w).2
        oy2 := (map_axis (clamp_low (pyTrunc (c1 * (dims.padded_h : ℚ))) dims.padded_h)
          (clamp_high (clamp_low (pyTrunc (c1 * (dims.padded_h : ℚ))) dims.padded_h)
            (pyTrunc (c3 * (dims.padded_h : ℚ))) dims.padded_h)
          ((dims.padded_h - dims.original_h).fdiv 2) dims.original_h).2
        prevBox := c0 :: c1 :: c2 :: c3 :: rest } := by
  simp only [process_coordinates, map_to_original_coordinates]

/-- C2-counterexample: the normalized box `[0.99, 0, 1, 1]` on a 10x100
image padded to 100x100 lands in the horizontal padding margin; the
original-space result is the inverted box `x1 = 54, x2 = 10`, refuting
the claim that the mapper always returns a non-degenerate box in
original image space. -/
theorem process_coordinates_degenerate_cex :
    (process_coordinates [(99 : ℚ)/100, 0, 1, 1] ⟨10, 100, 100, 100⟩).ox2 <
    (process_coordinates [(99 : ℚ)/100, 0, 1, 1] ⟨10, 100, 100, 100⟩).ox1 := by
  norm_num [process_coordinates, map_to_original_coordinates, map_axis,
    clamp_low, clamp_high, pyTrunc, Int.fdiv]

/-- C2 (amended): for every input box with at least four coordinates and
every `ImageDimensions`, the padded-space box is non-degenerate
(`x2 > x1` and `y2 > y1`); in original space the degenerate-box rescue
forces the upper bound to `min(lower + 1, original_dim)`, which yields a
non-degenerate box whenever the clamped lower bound lies strictly below
`original_dim`; boxes falling in the padding margin can come out
degenerate or inverted. -/
theorem process_coordinates_boxes (c0 c1 c2 c3 : ℚ) (rest : List ℚ)
    (dims : ImageDimensions) :
    (process_coordinates (c0 :: c1 :: c2 :: c3 :: rest) dims).px1 <
      (process_coordinates (c0 :: c1 :: c2 :: c3 :: rest) dims).px2 ∧
    (process_coordinates (c0 :: c1 :: c2 :: c3 :: rest) dims).py1 <
      (process_coordinates (c0 :: c1 :: c2 :: c3 :: rest) dims).py2 ∧
    ((process_coordinates (c0 :: c1 :: c2 :: c3 :: rest) dims).ox1 < dims.original_w →
      (process_coordinates (c0 :: c1 :: c2 :: c3 :: rest) dims).ox1 <
        (process_coordinates (c0 :: c1 :: c2 :: c3 :: rest) dims).ox2) ∧
    ((process_coordinates (c0 :: c1 :: c2 :: c3 :: rest) dims).oy1 < dims.original_h →
      (process_coordinates (c0 :: c1 :: c2 :: c3 :: rest) dims).oy1 <
        (process_coordinates (c0 :: c1 :: c2 :: c3 :: rest) dims).oy2) := by
  rw [process_coordinates_cons]
  exact ⟨lt_clamp_high _ _ _, lt_clamp_high _ _ _,
    fun h => map_axis_lt h, fun h => map_axis_lt h⟩

/-- Witness for `process_coordinates_boxes` at the box `[0, 0, 1/2, 1/2]`
on a square 100x100 image. -/
theorem process_coordinates_boxes_witness :
    (process_coordinates [0, 0, (1 : ℚ)/2, 1/2] ⟨100, 100, 100, 100⟩).ox1 < 100 ∧
    (process_coordinates [0, 0, (1 : ℚ)/2, 1/2] ⟨100, 100, 100, 100⟩).ox1 <
      (process_coordinates [0, 0, (1 : ℚ)/2, 1/2] ⟨100, 100, 100, 100⟩).ox2 :=
  ⟨by norm_num [process_coordinates, map_to_original_coordinates, map_axis,
      clamp_low, clamp_high, pyTrunc, Int.fdiv],
   (process_coordinates_boxes 0 0 ((1 : ℚ)/2) ((1 : ℚ)/2) []
     ⟨100, 100, 100, 100⟩).2.2.1
     (by norm_num [process_coordinates, map_to_original_coordinates, map_axis,
       clamp_low, clamp_high, pyTrunc, Int.fdiv])⟩

/-- C6: an input list with fewer than four coordinates raises inside the
`try` of `process_coordinates` and the except branch returns the fixed
safe fallback box `[0, 0, 100, 100]` in both the padded and the original
space; no error propagates to the caller. -/
theorem process_coordinates_fallback (coords : List ℚ) (dims : ImageDimensions)
    (h : coords.length < 4) :
    process_coordinates coords dims = ⟨0, 0, 100, 100, 0, 0, 100, 100, coords⟩ := by
  match coords with
  | [] => rfl
  | [_] => rfl
  | [_, _] => rfl
  | [_, _, _] => rfl
  | _ :: _ :: _ :: _ :: _ => simp only [List.length_cons] at h; omega

/-- Witness for `process_coordinates_fallback` on the empty coordinate list. -/
theorem process_coordinates_fallback_witness :
    ([] : List ℚ).length < 4 ∧
    process_coordinates [] ⟨10, 20, 20, 20⟩ = ⟨0, 0, 100, 100, 0, 0, 100, 100, []⟩ :=
  ⟨by decide, process_coordinates_fallback [] ⟨10, 20, 20, 20⟩ (by decide)⟩

/-! ## Data model (`src/core/models.py`) -/

/-- `ElementType` from `src/core/models.py` lines 22-27. -/
inductive ElementType where
  | text
  | table
  | figure
  | formula
deriving DecidableEq, Repr

/-- A metadata value: the pipeline stores strings and ints in the open
`metadata` map. -/
inductive MetaVal where
  | str (s : String)
  | int (n : ℤ)
deriving DecidableEq, Repr

/-- Bounding box `[x1, y1, x2, y2]`; the source stores it as a 4-element
list of floats (`y1` is the top edge, `y2` the bottom edge). -/
structure Box where
  x1 : ℚ
  y1 : ℚ
  x2 : ℚ
  y2 : ℚ
deriving DecidableEq, Repr

/-- `DocumentElement` from `src/core/models.py` lines 37-48.  The random
`element_id` (uuid4 default) is independent of all claims and omitted;
`confidence` defaults to `0.0` and `metadata` to `{}`. -/
structure DocumentElement where
  element_type : ElementType
  bbox : Box
  text : String
  confidence : ℚ
  reading_order : ℕ
  metadata : List (String × MetaVal)
deriving DecidableEq, Repr

/-! ## Block merger (`src/utils/parsing_utils.py` lines 208-309) -/

/-- `_merge_element_group(elements)` from `src/utils/parsing_utils.py`
lines 270-309.  An empty group raises `ValueError` in the source and is
never passed by the caller; the embedding returns a junk element there.
A group of size 1 returns its only element unchanged.  A larger group is
folded: componentwise min/max of the boxes, texts with non-blank strip
joined by a single space, mean of the strictly positive confidences (or
`0.0` when there is none), minimum reading order, the first element's
type, and the model's default (empty) metadata. -/
def _merge_element_group : List DocumentElement → DocumentElement
  | [] => ⟨ElementType.text, ⟨0, 0, 0, 0⟩, "", 0, 0, []⟩
  | [e] => e
  | e :: rest =>
    let elements := e :: rest
    let min_x := (rest.map (fun el => el.bbox.x1)).foldl min e.bbox.x1
    let min_y := (rest.map (fun el => el.bbox.y1)).foldl min e.bbox.y1
    let max_x := (rest.map (fun el => el.bbox.x2)).foldl max e.bbox.x2
    let max_y := (rest.map (fun el => el.bbox.y2)).foldl max e.bbox.y2
    let texts := (elements.filter (fun el => el.text.trim ≠ "")).map
      (fun el => el.text)
    let merged_text := String.intercalate " " texts
    let confidences := (elements.filter (fun el => 0 < el.confidence)).map
      (fun el => el.confidence)
    let avg_confidence :=
      if confidences.isEmpty then 0 else confidences.sum / confidences.length
    let reading_order := (rest.map (fun el => el.reading_order)).foldl min
      e.reading_order
    ⟨e.element_type, ⟨min_x, min_y, max_x, max_y⟩, merged_text,
      avg_confidence, reading_order, []⟩

/-- The adjacency test of `merge_text_blocks` (lines 239-245): the
absolute vertical distance between the previous element's bottom edge
(`bbox[3]`) and the current element's top edge (`bbox[1]`) is within
`max_distance`. -/
def blocks_adjacent (max_distance : ℚ) (previous current : DocumentElement) : Bool :=
  |current.bbox.y1 - previous.bbox.y2| ≤ max_distance

/-- The grouping loop of `merge_text_blocks` (lines 232-255): the running
`current_group` always ends with the element processed immediately
before, so the loop splits the sorted text elements into maximal runs of
consecutively adjacent elements. -/
def group_runs (max_distance : ℚ) : List DocumentElement → List (List DocumentElement)
  | [] => []
  | [x] => [[x]]
  | x :: y :: rest =>
    match group_runs max_distance (y :: rest) with
    | [] => [[x]]
    | g :: gs =>
      if blocks_adjacent max_distance x y then (x :: g) :: gs else [x] :: g :: gs

/-- Emission of one completed group (lines 248-253 and 256-261): a group
of size larger than 1 contributes its merged element, a singleton group
is extended onto the output unchanged. -/
def emit_group (g : List DocumentElement) : List DocumentElement :=
  if 1 < g.length then [_merge_element_group g] else g

/-- Python's stable `list.sort(key=lambda x: x.reading_order)`, embedded
as the stable `List.insertionSort`. -/
def sortByRo (l : List DocumentElement) : List DocumentElement :=
  l.insertionSort (fun a b => a.reading_order ≤ b.reading_order)

/-- `merge_text_blocks(elements, max_distance=50.0)` from
`src/utils/parsing_utils.py` lines 208-267. -/
def merge_text_blocks (elements : List DocumentElement) (max_distance : ℚ) :
    List DocumentElement :=
  if elements.isEmpty then elements
  else
    let text_elements := elements.filter
      (fun e => e.element_type == ElementType.text)
    let other_elements := elements.filter
      (fun e => !(e.element_type == ElementType.text))
    if text_elements.length ≤ 1 then elements
    else
      let sorted_texts := sortByRo text_elements
      let merged := ((group_runs max_distance sorted_texts).map emit_group).flatten
      sortByRo (merged ++ other_elements)

/-! ## The enhanced engine's dict-shaped elements and text-block merger
(`src/api/enhanced_main.py`) -/

/-- The dict-shaped element records flowing through `xDANVisionEngine`
(`src/api/enhanced_main.py`).  `type` is one of the strings `"text"`,
`"table"`, `"figure"`, `"formula"`; `confidence` is `none` when the
`"confidence"` key is absent (`elem.get("confidence", 0.0)` then yields
`0.0`).  The opaque `crop`/`image_data` payloads do not influence any
claim and are omitted. -/
structure EDict where
  element_id : String
  type : String
  bbox : Box
  text : String
  confidence : Option ℚ
  reading_order : ℕ
  metadata : List (String × MetaVal)
deriving DecidableEq, Repr

/-- `xDANVisionEngine._are_adjacent(bbox1, bbox2, threshold=20.0)` from
`src/api/enhanced_main.py` lines 618-622. -/
def _are_adjacent (bbox1 bbox2 : Box) (threshold : ℚ) : Bool :=
  |bbox2.y1 - bbox1.y2| ≤ threshold

/-- `xDANVisionEngine._merge_text_group(group)` from
`src/api/enhanced_main.py` lines 624-647: the merged dict is a copy of
the group's first element updated with the joined non-blank texts, the
union bounding box, and `metadata = {"merged_from": len(group)}`;
`confidence`, `reading_order`, `type` and `element_id` stay those of the
first element.  An empty group returns `{}` in the source and is never
passed; the embedding returns a junk record there. -/
def _merge_text_group : List EDict → EDict
  | [] => ⟨"", "", ⟨0, 0, 0, 0⟩, "", none, 0, []⟩
  | first :: rest =>
    let group := first :: rest
    let texts := (group.filter (fun el => el.text.trim ≠ "")).map
      (fun el => el.text)
    let merged_text := String.intercalate " " texts
    let min_x := (rest.map (fun el => el.bbox.x1)).foldl min first.bbox.x1
    let min_y := (rest.map (fun el => el.bbox.y1)).foldl min first.bbox.y1
    let max_x := (rest.map (fun el => el.bbox.x2)).foldl max first.bbox.x2
    let max_y := (rest.map (fun el => el.bbox.y2)).foldl max first.bbox.y2
    { first with
        text := merged_text
        bbox := ⟨min_x, min_y, max_x, max_y⟩
        metadata := [("merged_from", MetaVal.int (group.length : ℤ))] }

/-- Stable sort of dict elements by `x["reading_order"]`. -/
def sortByRoD (l : List EDict) : List EDict :=
  l.insertionSort (fun a b => a.reading_order ≤ b.reading_order)

/-- Emission of a completed text group in
`_merge_adjacent_text_blocks`: a group of more than one element is
merged, otherwise the group is appended unchanged (an empty group adds
nothing). -/
def emit_text_group (g : List EDict) : List EDict :=
  if 1 < g.length then [_merge_text_group g] else g

/-- The loop of `xDANVisionEngine._merge_adjacent_text_blocks`
(`src/api/enhanced_main.py` lines 575-616), with the running
`current_group` as accumulator: a text element joins the group when
adjacent (threshold 20.0, the `_are_adjacent` default) to the group's
last member, otherwise the group is flushed; a non-text element flushes
the group and is emitted in place. -/
def merge_adjacent_loop : List EDict → List EDict → List EDict
  | group, [] => emit_text_group group
  | group, e :: rest =>
    if e.type == "text" then
      match group.getLast? with
      | none => merge_adjacent_loop [e] rest
      | some last =>
        if _are_adjacent last.bbox e.bbox 20 then
          merge_adjacent_loop (group ++ [e]) rest
        else
          emit_text_group group ++ merge_adjacent_loop [e] rest
    else
      emit_text_group group ++ e :: merge_adjacent_loop [] rest

/-- `xDANVisionEngine._merge_adjacent_text_blocks(elements)` from
`src/api/enhanced_main.py` lines 575-616. -/
def _merge_adjacent_text_blocks (elements : List EDict) : List EDict :=
  if elements.isEmpty then elements
  else merge_adjacent_loop [] (sortByRoD elements)

/-! ## Shared fold lemmas for the group folds -/

lemma foldl_min_le_mem {α : Type} [LinearOrder α] (l : List α) (a : α) :
    ∀ x ∈ a :: l, l.foldl min a ≤ x := by
  induction l generalizing a with
  | nil =>
    intro x hx
    simp only [List.mem_singleton] at hx
    simp [hx]
  | cons b t ih =>
    intro x hx
    simp only [List.foldl_cons]
    have h0 : List.foldl min (min a b) t ≤ min a b :=
      ih (min a b) (min a b) (List.mem_cons_self _ _)
    rcases List.mem_cons.1 hx with h | hx
    · rw [h]; exact le_trans h0 (min_le_left a b)
    · rcases List.mem_cons.1 hx with h | hx
      · rw [h]; exact le_trans h0 (min_le_right a b)
      · exact ih (min a b) x (List.mem_cons_of_mem _ hx)

lemma foldl_min_mem {α : Type} [LinearOrder α] (l : List α) (a : α) :
    l.foldl min a ∈ a :: l := by
  induction l generalizing a with
  | nil => simp
  | cons b t ih =>
    simp only [List.foldl_cons]
    rcases List.mem_cons.1 (ih (min a b)) with h | h
    · rcases min_choice a b with hc | hc <;> rw [h, hc] <;> simp
    · simp [List.mem_cons_of_mem, h]

lemma le_foldl_max_mem {α : Type} [LinearOrder α] (l : List α) (a : α) :
    ∀ x ∈ a :: l, x ≤ l.foldl max a := by
  induction l generalizing a with
  | nil =>
    intro x hx
    simp only [List.mem_singleton] at hx
    simp [hx]
  | cons b t ih =>
    intro x hx
    simp only [List.foldl_cons]
    have h0 : max a b ≤ List.foldl max (max a b) t :=
      ih (max a b) (max a b) (List.mem_cons_self _ _)
    rcases List.mem_cons.1 hx with h | hx
    · rw [h]; exact le_trans (le_max_left a b) h0
    · rcases List.mem_cons.1 hx with h | hx
      · rw [h]; exact le_trans (le_max_right a b) h0
      · exact ih (max a b) x (List.mem_cons_of_mem _ hx)

lemma foldl_max_mem {α : Type} [LinearOrder α] (l : List α) (a : α) :
    l.foldl max a ∈ a :: l := by
  induction l generalizing a with
  | nil => simp
  | cons b t ih =>
    simp only [List.foldl_cons]
    rcases List.mem_cons.1 (ih (max a b)) with h | h
    · rcases max_choice a b with hc | hc <;> rw [h, hc] <;> simp
    · simp [List.mem_cons_of_mem, h]

/-! ## C1: merge is not idempotent -/

/-- First text block of the idempotence counterexample: a tall block
whose bottom edge (100) lies below the bottom edge of the next block. -/
def mcA : DocumentElement := ⟨ElementType.text, ⟨0, 0, 100, 100⟩, "a", 0, 0, []⟩

/-- Second text block: top edge 90 is within distance 10 of `mcA`'s
bottom edge, so the first pass merges it with `mcA`; its own bottom edge
is only 95, but the merged union box bottoms out at 100. -/
def mcB : DocumentElement := ⟨ElementType.text, ⟨0, 90, 100, 95⟩, "b", 0, 1, []⟩

/-- Third text block: top edge 150 is 55 away from `mcB`'s bottom edge
(farther than the threshold 50) but only 50 away from the merged union
box's bottom edge, so a second pass merges it while the first did not. -/
def mcC : DocumentElement := ⟨ElementType.text, ⟨0, 150, 100, 160⟩, "c", 0, 2, []⟩

/-- C1-counterexample: `merge_text_blocks` is not idempotent.  On
`[mcA, mcB, mcC]` with the default threshold 50 the first pass produces
two elements (the merge of `mcA, mcB`, and `mcC`), and a second pass
merges those two into one, because the union box of the first group
extends below its last member's bottom edge. -/
theorem merge_text_blocks_not_idempotent :
    merge_text_blocks (merge_text_blocks [mcA, mcB, mcC] 50) 50 ≠
      merge_text_blocks [mcA, mcB, mcC] 50 := by
  intro h
  have h1 : (merge_text_blocks [mcA, mcB, mcC] 50).length = 2 := by
    norm_num [merge_text_blocks, group_runs, emit_group, blocks_adjacent,
      sortByRo, List.insertionSort, List.orderedInsert, mcA, mcB, mcC,
      _merge_element_group]
  have h2 : (merge_text_blocks (merge_text_blocks [mcA, mcB, mcC] 50) 50).length = 1 := by
    norm_num [merge_text_blocks, group_runs, emit_group, blocks_adjacent,
      sortByRo, List.insertionSort, List.orderedInsert, mcA, mcB, mcC,
      _merge_element_group]
  rw [h, h1] at h2
  exact absurd h2 (by norm_num)

/-! ## C4: what the group fold actually computes -/

lemma foldl_min_le_of_mem {α β : Type} [LinearOrder β] (f : α → β) (a : α)
    (l : List α) : ∀ e ∈ a :: l, (l.map f).foldl min (f a) ≤ f e := by
  intro e he
  apply foldl_min_le_mem
  rcases List.mem_cons.1 he with h | h
  · rw [h]; exact List.mem_cons_self _ _
  · exact List.mem_cons_of_mem _ (List.mem_map_of_mem f h)

lemma le_foldl_max_of_mem {α β : Type} [LinearOrder β] (f : α → β) (a : α)
    (l : List α) : ∀ e ∈ a :: l, f e ≤ (l.map f).foldl max (f a) := by
  intro e he
  apply le_foldl_max_mem
  rcases List.mem_cons.1 he with h | h
  · rw [h]; exact List.mem_cons_self _ _
  · exact List.mem_cons_of_mem _ (List.mem_map_of_mem f h)

lemma foldl_min_mem_map {α β : Type} [LinearOrder β] (f : α → β) (a : α)
    (l : List α) : (l.map f).foldl min (f a) ∈ (a :: l).map f := by
  simpa using foldl_min_mem (l.map f) (f a)

lemma foldl_max_mem_map {α β : Type} [LinearOrder β] (f : α → β) (a : α)
    (l : List α) : (l.map f).foldl max (f a) ∈ (a :: l).map f := by
  simpa using foldl_max_mem (l.map f) (f a)

/-- First element of the C4 counterexample group. -/
def c4d1 : DocumentElement := ⟨ElementType.text, ⟨0, 0, 10, 10⟩, "x", 9/10, 0, []⟩

/-- Second element of the C4 counterexample group. -/
def c4d2 : DocumentElement := ⟨ElementType.text, ⟨5, 12, 20, 22⟩, "y", 1/10, 1, []⟩

/-- First element of the C4 enhanced-merger counterexample group. -/
def c4e1 : EDict := ⟨"id1", "text", ⟨0, 0, 10, 10⟩, "x", some (9/10), 0, []⟩

/-- Second element of the C4 enhanced-merger counterexample group. -/
def c4e2 : EDict := ⟨"id2", "text", ⟨5, 12, 20, 22⟩, "y", some (1/10), 1, []⟩

/-- C4-counterexample: folding the two-element group `[c4d1, c4d2]` with
`_merge_element_group` leaves the metadata empty (the claim says the
metadata records the number of source elements folded), and the enhanced
engine's `_merge_text_group` keeps the first element's confidence `0.9`
instead of the arithmetic mean `0.5` of the group. -/
theorem merge_group_claim_fails :
    (_merge_element_group [c4d1, c4d2]).metadata = [] ∧
    (_merge_text_group [c4e1, c4e2]).confidence = some (9/10) := by
  constructor <;> rfl

/-- Projection equations for `_merge_element_group` on a group of two or
more elements. -/
lemma meg_bbox_x1 (a b : DocumentElement) (t : List DocumentElement) :
    (_merge_element_group (a :: b :: t)).bbox.x1 =
      ((b :: t).map (fun el => el.bbox.x1)).foldl min a.bbox.x1 := rfl

lemma meg_bbox_y1 (a b : DocumentElement) (t : List DocumentElement) :
    (_merge_element_group (a :: b :: t)).bbox.y1 =
      ((b :: t).map (fun el => el.bbox.y1)).foldl min a.bbox.y1 := rfl

lemma meg_bbox_x2 (a b : DocumentElement) (t : List DocumentElement) :
    (_merge_element_group (a :: b :: t)).bbox.x2 =
      ((b :: t).map (fun el => el.bbox.x2)).foldl max a.bbox.x2 := rfl

lemma meg_bbox_y2 (a b : DocumentElement) (t : List DocumentElement) :
    (_merge_element_group (a :: b :: t)).bbox.y2 =
      ((b :: t).map (fun el => el.bbox.y2)).foldl max a.bbox.y2 := rfl

lemma meg_reading_order (a b : DocumentElement) (t : List DocumentElement) :
    (_merge_element_group (a :: b :: t)).reading_order =
      ((b :: t).map (fun el => el.reading_order)).foldl min a.reading_order := rfl

/-- Projection equations for `_merge_text_group` on a group of two or
more elements. -/
lemma mtg_bbox_x1 (a b : EDict) (t : List EDict) :
    (_merge_text_group (a :: b :: t)).bbox.x1 =
      ((b :: t).map (fun el => el.bbox.x1)).foldl min a.bbox.x1 := rfl

lemma mtg_bbox_y1 (a b : EDict) (t : List EDict) :
    (_merge_text_group (a :: b :: t)).bbox.y1 =
      ((b :: t).map (fun el => el.bbox.y1)).foldl min a.bbox.y1 := rfl

lemma mtg_bbox_x2 (a b : EDict) (t : List EDict) :
    (_merge_text_group (a :: b :: t)).bbox.x2 =
      ((b :: t).map (fun el => el.bbox.x2)).foldl max a.bbox.x2 := rfl

lemma mtg_bbox_y2 (a b : EDict) (t : List EDict) :
    (_merge_text_group (a :: b :: t)).bbox.y2 =
      ((b :: t).map (fun el => el.bbox.y2)).foldl max a.bbox.y2 := rfl

set_option maxHeartbeats 1000000 in
/-- C4 (amended): for a group of two or more elements,
`_merge_element_group` returns the componentwise union bounding box
(each output coordinate bounds every member and is attained by some
member), the texts with non-blank strip joined by single spaces in
original order, the arithmetic mean of the strictly positive
confidences (`0.0` when there is none), the minimum reading order, the
first element's type, and an *empty* metadata (no fold count); a
singleton group is returned unchanged.  The enhanced engine's
`_merge_text_group` instead records `{"merged_from": n}` in the
metadata, but keeps the *first* element's confidence, reading order and
id (no averaging). -/
theorem merge_group_spec :
    (∀ (a b : DocumentElement) (t : List DocumentElement),
      (∀ e ∈ a :: b :: t,
        (_merge_element_group (a :: b :: t)).bbox.x1 ≤ e.bbox.x1 ∧
        (_merge_element_group (a :: b :: t)).bbox.y1 ≤ e.bbox.y1 ∧
        e.bbox.x2 ≤ (_merge_element_group (a :: b :: t)).bbox.x2 ∧
        e.bbox.y2 ≤ (_merge_element_group (a :: b :: t)).bbox.y2 ∧
        (_merge_element_group (a :: b :: t)).reading_order ≤ e.reading_order) ∧
      (_merge_element_group (a :: b :: t)).bbox.x1 ∈
        (a :: b :: t).map (fun e => e.bbox.x1) ∧
      (_merge_element_group (a :: b :: t)).bbox.y1 ∈
        (a :: b :: t).map (fun e => e.bbox.y1) ∧
      (_merge_element_group (a :: b :: t)).bbox.x2 ∈
        (a :: b :: t).map (fun e => e.bbox.x2) ∧
      (_merge_element_group (a :: b :: t)).bbox.y2 ∈
        (a :: b :: t).map (fun e => e.bbox.y2) ∧
      (_merge_element_group (a :: b :: t)).reading_order ∈
        (a :: b :: t).map (fun e => e.reading_order) ∧
      (_merge_element_group (a :: b :: t)).text = String.intercalate " "
        (((a :: b :: t).filter (fun el => el.text.trim ≠ "")).map
          (fun el => el.text)) ∧
      (_merge_element_group (a :: b :: t)).confidence =
        (if (((a :: b :: t).filter (fun el => 0 < el.confidence)).map
              (fun el => el.confidence)).isEmpty then 0
         else (((a :: b :: t).filter (fun el => 0 < el.confidence)).map
              (fun el => el.confidence)).sum /
           ((((a :: b :: t).filter (fun el => 0 < el.confidence)).map
              (fun el => el.confidence)).length : ℚ)) ∧
      (_merge_element_group (a :: b :: t)).metadata = [] ∧
      (_merge_element_group (a :: b :: t)).element_type = a.element_type) ∧
    (∀ e : DocumentElement, _merge_element_group [e] = e) ∧
    (∀ (a b : EDict) (t : List EDict),
      (∀ e ∈ a :: b :: t,
        (_merge_text_group (a :: b :: t)).bbox.x1 ≤ e.bbox.x1 ∧
        (_merge_text_group (a :: b :: t)).bbox.y1 ≤ e.bbox.y1 ∧
        e.bbox.x2 ≤ (_merge_text_group (a :: b :: t)).bbox.x2 ∧
        e.bbox.y2 ≤ (_merge_text_group (a :: b :: t)).bbox.y2) ∧
      (_merge_text_group (a :: b :: t)).text = String.intercalate " "
        (((a :: b :: t).filter (fun el => el.text.trim ≠ "")).map
          (fun el => el.text)) ∧
      (_merge_text_group (a :: b :: t)).metadata =
        [("merged_from", MetaVal.int ((a :: b :: t).length : ℤ))] ∧
      (_merge_text_group (a :: b :: t)).confidence = a.confidence ∧
      (_merge_text_group (a :: b :: t)).reading_order = a.reading_order ∧
      (_merge_text_group (a :: b :: t)).element_id = a.element_id ∧
      (_merge_text_group (a :: b :: t)).type = a.type) := by
  refine ⟨fun a b t => ?_, fun e => rfl, fun a b t => ?_⟩
  · refine ⟨fun e he => ⟨?_, ?_, ?_, ?_, ?_⟩, ?_, ?_, ?_, ?_, ?_, rfl, rfl, rfl, rfl⟩
    · rw [meg_bbox_x1]
      exact foldl_min_le_of_mem (fun x => x.bbox.x1) a (b :: t) e he
    · rw [meg_bbox_y1]
      exact foldl_min_le_of_mem (fun x => x.bbox.y1) a (b :: t) e he
    · rw [meg_bbox_x2]
      exact le_foldl_max_of_mem (fun x => x.bbox.x2) a (b :: t) e he
    · rw [meg_bbox_y2]
      exact le_foldl_max_of_mem (fun x => x.bbox.y2) a (b :: t) e he
    · rw [meg_reading_order]
      exact foldl_min_le_of_mem (fun x => x.reading_order) a (b :: t) e he
    · rw [meg_bbox_x1]; exact foldl_min_mem_map (fun x => x.bbox.x1) a (b :: t)
    · rw [meg_bbox_y1]; exact foldl_min_mem_map (fun x => x.bbox.y1) a (b :: t)
    · rw [meg_bbox_x2]; exact foldl_max_mem_map (fun x => x.bbox.x2) a (b :: t)
    · rw [meg_bbox_y2]; exact foldl_max_mem_map (fun x => x.bbox.y2) a (b :: t)
    · rw [meg_reading_order]
      exact foldl_min_mem_map (fun x => x.reading_order) a (b :: t)
  · refine ⟨fun e he => ⟨?_, ?_, ?_, ?_⟩, rfl, rfl, rfl, rfl, rfl, rfl⟩
    · rw [mtg_bbox_x1]
      exact foldl_min_le_of_mem (fun x => x.bbox.x1) a (b :: t) e he
    · rw [mtg_bbox_y1]
      exact foldl_min_le_of_mem (fun x => x.bbox.y1) a (b :: t) e he
    · rw [mtg_bbox_x2]
      exact le_foldl_max_of_mem (fun x => x.bbox.x2) a (b :: t) e he
    · rw [mtg_bbox_y2]
      exact le_foldl_max_of_mem (fun x => x.bbox.y2) a (b :: t) e he

/-- Witness for `merge_group_spec` on the concrete two-element groups
`[c4d1, c4d2]` and `[c4e1, c4e2]`. -/
theorem merge_group_spec_witness :
    (_merge_element_group [c4d1, c4d2]).bbox.x1 ≤ c4d1.bbox.x1 ∧
    (_merge_element_group [c4d1, c4d2]).reading_order ∈
      [c4d1, c4d2].map (fun e => e.reading_order) ∧
    _merge_element_group [c4d1] = c4d1 ∧
    (_merge_text_group [c4e1, c4e2]).confidence = c4e1.confidence :=
  ⟨((merge_group_spec.1 c4d1 c4d2 []).1 c4d1 (by simp)).1,
   (merge_group_spec.1 c4d1 c4d2 []).2.2.2.2.2.1,
   merge_group_spec.2.1 c4d1,
   (merge_group_spec.2.2 c4e1 c4e2 []).2.2.2.1⟩

/-! ## C1 (amended): merge is idempotent on vertically monotone text lists -/

/-- Strictly increasing reading order between two elements. -/
def ro_lt (a b : DocumentElement) : Prop := a.reading_order < b.reading_order

/-- Non-decreasing reading order between two elements. -/
def ro_le (a b : DocumentElement) : Prop := a.reading_order ≤ b.reading_order

/-- Non-decreasing top edges. -/
def top_le (a b : DocumentElement) : Prop := a.bbox.y1 ≤ b.bbox.y1

/-- Non-decreasing bottom edges. -/
def bot_le (a b : DocumentElement) : Prop := a.bbox.y2 ≤ b.bbox.y2

/-- Two consecutive blocks farther apart than the threshold. -/
def non_adjacent (T : ℚ) (a b : DocumentElement) : Prop :=
  blocks_adjacent T a b = false

lemma chain'_replace_head {α : Type} {R : α → α → Prop} {a b : α} {l : List α}
    (h : List.Chain' R (a :: l)) (hab : ∀ c, R a c → R b c) :
    List.Chain' R (b :: l) := by
  cases l with
  | nil => simp
  | cons c t =>
    rw [List.chain'_cons] at h ⊢
    exact ⟨hab c h.1, h.2⟩

lemma foldl_min_comm {α : Type} [LinearOrder α] (l : List α) :
    ∀ a b : α, l.foldl min (min a b) = min a (l.foldl min b) := by
  induction l with
  | nil => intro a b; rfl
  | cons c t ih =>
    intro a b
    simp only [List.foldl_cons]
    rw [min_assoc, ih]

lemma foldl_max_comm {α : Type} [LinearOrder α] (l : List α) :
    ∀ a b : α, l.foldl max (max a b) = max a (l.foldl max b) := by
  induction l with
  | nil => intro a b; rfl
  | cons c t ih =>
    intro a b
    simp only [List.foldl_cons]
    rw [max_assoc, ih]

lemma foldl_min_eq_init {α : Type} [LinearOrder α] {l : List α} {a : α}
    (h : ∀ x ∈ l, a ≤ x) : l.foldl min a = a := by
  induction l with
  | nil => rfl
  | cons b t ih =>
    simp only [List.foldl_cons]
    rw [min_eq_left (h b (List.mem_cons_self _ _)), ih]
    intro x hx
    exact h x (List.mem_cons_of_mem _ hx)

/-- The first group produced by `group_runs` on a nonempty list starts
with the list's first element. -/
lemma group_runs_cons_shape (T : ℚ) (x : DocumentElement) :
    ∀ l : List DocumentElement,
      ∃ g gs, group_runs T (x :: l) = (x :: g) :: gs := by
  intro l
  induction l generalizing x with
  | nil => exact ⟨[], [], rfl⟩
  | cons y rest ih =>
    obtain ⟨g, gs, hg⟩ := ih y
    by_cases hadj : blocks_adjacent T x y
    · exact ⟨y :: g, gs, by simp only [group_runs, hg, hadj, if_pos]⟩
    · exact ⟨[], (y :: g) :: gs, by simp only [group_runs, hg, hadj, if_neg,
        Bool.false_eq_true, not_false_eq_true]⟩

/-- Flattening the groups recovers the input list. -/
lemma group_runs_flatten (T : ℚ) :
    ∀ l : List DocumentElement, (group_runs T l).flatten = l := by
  intro l
  induction l with
  | nil => rfl
  | cons x rest ih =>
    cases rest with
    | nil => rfl
    | cons y rest' =>
      obtain ⟨g, gs, hg⟩ := group_runs_cons_shape T y rest'
      rw [hg] at ih
      by_cases hadj : blocks_adjacent T x y
      · simp only [group_runs, hg, hadj, if_pos, List.flatten_cons]
        simpa using ih
      · simp only [group_runs, hg, hadj, Bool.false_eq_true, not_false_eq_true,
          if_neg, List.flatten_cons]
        simpa using ih

/-- Every group produced by `group_runs` is nonempty. -/
lemma group_runs_ne_nil (T : ℚ) :
    ∀ l : List DocumentElement, ∀ g ∈ group_runs T l, g ≠ [] := by
  intro l
  induction l with
  | nil => intro g hg; simp [group_runs] at hg
  | cons x rest ih =>
    cases rest with
    | nil =>
      intro g hg
      simp only [group_runs, List.mem_singleton] at hg
      simp [hg]
    | cons y rest' =>
      obtain ⟨g0, gs, hg0⟩ := group_runs_cons_shape T y rest'
      intro g hg
      by_cases hadj : blocks_adjacent T x y
      · simp only [group_runs, hg0, hadj, if_pos, List.mem_cons] at hg
        rcases hg with h | h
        · simp [h]
        · exact ih g (by rw [hg0]; exact List.mem_cons_of_mem _ h)
      · simp only [group_runs, hg0, hadj, Bool.false_eq_true, not_false_eq_true,
          if_neg, List.mem_cons] at hg
        rcases hg with h | h | h
        · simp [h]
        · simp [h]
        · exact ih g (by rw [hg0]; exact List.mem_cons_of_mem _ h)

/-- The single element emitted for one (nonempty) group: the merged
element for a group of two or more, the element itself for a singleton. -/
def em_group (g : List DocumentElement) : DocumentElement :=
  if 1 < g.length then _merge_element_group g
  else g.headD ⟨ElementType.text, ⟨0, 0, 0, 0⟩, "", 0, 0, []⟩

/-- The merged list produced by the grouping loop of
`merge_text_blocks`. -/
def merged_of (T : ℚ) (es : List DocumentElement) : List DocumentElement :=
  ((group_runs T es).map emit_group).flatten

lemma emit_group_eq_singleton {g : List DocumentElement} (h : g ≠ []) :
    emit_group g = [em_group g] := by
  match g, h with
  | [x], _ => rfl
  | a :: b :: t, _ =>
    simp only [emit_group, em_group, List.length_cons]
    rw [if_pos (by omega), if_pos (by omega)]

lemma flatten_emit_eq_map :
    ∀ gs : List (List DocumentElement), (∀ g ∈ gs, g ≠ []) →
      (gs.map emit_group).flatten = gs.map em_group := by
  intro gs
  induction gs with
  | nil => intro _; rfl
  | cons g gs ih =>
    intro h
    simp only [List.map_cons, List.flatten_cons,
      emit_group_eq_singleton (h g (List.mem_cons_self _ _))]
    rw [ih (fun g' hg' => h g' (List.mem_cons_of_mem _ hg'))]
    rfl

lemma merged_of_eq_map (T : ℚ) (es : List DocumentElement) :
    merged_of T es = (group_runs T es).map em_group :=
  flatten_emit_eq_map (group_runs T es) (group_runs_ne_nil T es)

lemma meg_element_type (a b : DocumentElement) (t : List DocumentElement) :
    (_merge_element_group (a :: b :: t)).element_type = a.element_type := rfl

/-- Reading order of the emitted element when one more element is merged
into the front of a group. -/
lemma em_group_ro_cons2 (x y : DocumentElement) (g : List DocumentElement) :
    (em_group (x :: y :: g)).reading_order =
      min x.reading_order (em_group (y :: g)).reading_order := by
  cases g with
  | nil =>
    simp only [em_group, List.length_cons, List.length_nil]
    norm_num
    rw [meg_reading_order]
    simp
  | cons c t =>
    simp only [em_group, List.length_cons]
    rw [if_pos (by omega), if_pos (by omega)]
    rw [meg_reading_order, meg_reading_order]
    simp only [List.map_cons, List.foldl_cons]
    exact foldl_min_comm ((c :: t).map fun el => el.reading_order) x.reading_order y.reading_order

/-- Bottom edge of the emitted element when one more element is merged
into the front of a group. -/
lemma em_group_y2_cons2 (x y : DocumentElement) (g : List DocumentElement) :
    (em_group (x :: y :: g)).bbox.y2 =
      max x.bbox.y2 (em_group (y :: g)).bbox.y2 := by
  cases g with
  | nil =>
    simp only [em_group, List.length_cons, List.length_nil]
    norm_num
    rw [meg_bbox_y2]
    simp
  | cons c t =>
    simp only [em_group, List.length_cons]
    rw [if_pos (by omega), if_pos (by omega)]
    rw [meg_bbox_y2, meg_bbox_y2]
    simp only [List.map_cons, List.foldl_cons]
    exact foldl_max_comm ((c :: t).map fun el => el.bbox.y2) x.bbox.y2 y.bbox.y2

/-- When the group's head has the least top edge, the emitted element
keeps the head's top edge. -/
lemma em_group_y1_eq_head (y : DocumentElement) (g : List DocumentElement)
    (h : ∀ z ∈ g, y.bbox.y1 ≤ z.bbox.y1) :
    (em_group (y :: g)).bbox.y1 = y.bbox.y1 := by
  cases g with
  | nil => rfl
  | cons c t =>
    simp only [em_group, List.length_cons]
    rw [if_pos (by omega)]
    rw [meg_bbox_y1]
    apply foldl_min_eq_init
    intro v hv
    obtain ⟨z, hz, rfl⟩ := List.mem_map.1 hv
    exact h z hz

/-- When the group's head has the least reading order, the emitted
element keeps the head's reading order. -/
lemma em_group_ro_eq_head (y : DocumentElement) (g : List DocumentElement)
    (h : ∀ z ∈ g, y.reading_order ≤ z.reading_order) :
    (em_group (y :: g)).reading_order = y.reading_order := by
  cases g with
  | nil => rfl
  | cons c t =>
    simp only [em_group, List.length_cons]
    rw [if_pos (by omega)]
    rw [meg_reading_order]
    apply foldl_min_eq_init
    intro v hv
    obtain ⟨z, hz, rfl⟩ := List.mem_map.1 hv
    exact h z hz

/-- The emitted element's bottom edge is at least the group head's. -/
lemma em_group_y2_ge_head (y : DocumentElement) (g : List DocumentElement) :
    y.bbox.y2 ≤ (em_group (y :: g)).bbox.y2 := by
  cases g with
  | nil => exact le_refl _
  | cons c t =>
    simp only [em_group, List.length_cons]
    rw [if_pos (by omega)]
    rw [meg_bbox_y2]
    exact le_foldl_max_mem _ _ _ (List.mem_cons_self _ _)

/-- The emitted element keeps the group head's element type. -/
lemma em_group_type (y : DocumentElement) (g : List DocumentElement) :
    (em_group (y :: g)).element_type = y.element_type := by
  cases g with
  | nil => rfl
  | cons c t =>
    simp only [em_group, List.length_cons]
    rw [if_pos (by omega)]
    exact meg_element_type _ _ _

/-- Master lemma: on a list of text elements with strictly increasing
reading orders and non-decreasing top and bottom edges, the emitted
merged elements are all text, have strictly increasing reading orders,
and are pairwise-consecutively non-adjacent (each merged box's bottom
edge is its group's last bottom edge, and the gap at each group boundary
exceeded the threshold). -/
lemma merged_chains (T : ℚ) :
    ∀ es : List DocumentElement,
      (∀ e ∈ es, e.element_type = ElementType.text) →
      List.Pairwise ro_lt es →
      List.Pairwise top_le es →
      List.Pairwise bot_le es →
      (∀ m ∈ (group_runs T es).map em_group, m.element_type = ElementType.text) ∧
      List.Chain' ro_lt ((group_runs T es).map em_group) ∧
      List.Chain' (non_adjacent T) ((group_runs T es).map em_group) := by
  intro es
  induction es with
  | nil => intro _ _ _ _; exact ⟨by simp [group_runs], by simp [group_runs],
      by simp [group_runs]⟩
  | cons x rest ih =>
    intro h1 h2 h3 h4
    cases rest with
    | nil =>
      refine ⟨?_, ?_, ?_⟩
      · intro m hm
        simp only [group_runs, List.map_cons, List.map_nil,
          List.mem_singleton] at hm
        rw [hm]
        exact h1 x (List.mem_cons_self _ _)
      · simp [group_runs]
      · simp [group_runs]
    | cons y rest' =>
      obtain ⟨g, gs, hg⟩ := group_runs_cons_shape T y rest'
      -- the first group of `y :: rest'` is a prefix of it
      have hflat : (y :: g) ++ gs.flatten = y :: rest' := by
        have hf := group_runs_flatten T (y :: rest')
        rw [hg] at hf
        simpa using hf
      have hgpre : g ++ gs.flatten = rest' := by
        simpa using hflat
      have hgsub : g.Sublist rest' := List.IsPrefix.sublist ⟨gs.flatten, hgpre⟩
      have hygsub : (y :: g).Sublist (y :: rest') := hgsub.cons₂ y
      -- restricted hypotheses
      have h1' : ∀ e ∈ y :: rest', e.element_type = ElementType.text :=
        fun e he => h1 e (List.mem_cons_of_mem _ he)
      have h2' : List.Pairwise ro_lt (y :: rest') := (List.pairwise_cons.1 h2).2
      have h3' : List.Pairwise top_le (y :: rest') := (List.pairwise_cons.1 h3).2
      have h4' : List.Pairwise bot_le (y :: rest') := (List.pairwise_cons.1 h4).2
      have IH := ih h1' h2' h3' h4'
      rw [hg] at IH
      -- pairwise facts inside the head group `y :: g`
      have pro : List.Pairwise ro_lt (y :: g) := h2'.sublist hygsub
      have ptop : List.Pairwise top_le (y :: g) := h3'.sublist hygsub
      have hroyg : ∀ z ∈ g, y.reading_order ≤ z.reading_order :=
        fun z hz => le_of_lt ((List.pairwise_cons.1 pro).1 z hz)
      have htopyg : ∀ z ∈ g, y.bbox.y1 ≤ z.bbox.y1 :=
        fun z hz => (List.pairwise_cons.1 ptop).1 z hz
      -- consecutive facts
      have hxy_ro : ro_lt x y := (List.pairwise_cons.1 h2).1 y (List.mem_cons_self _ _)
      have hxy_bot : bot_le x y := (List.pairwise_cons.1 h4).1 y (List.mem_cons_self _ _)
      by_cases hadj : blocks_adjacent T x y
      · -- `x` joins the head group
        have hGR : group_runs T (x :: y :: rest') = (x :: y :: g) :: gs := by
          simp only [group_runs, hg, hadj, if_pos]
        rw [hGR]
        have hy2eq : (em_group (x :: y :: g)).bbox.y2 =
            (em_group (y :: g)).bbox.y2 := by
          rw [em_group_y2_cons2]
          exact max_eq_right (le_trans hxy_bot (em_group_y2_ge_head y g))
        have hrole : (em_group (x :: y :: g)).reading_order ≤
            (em_group (y :: g)).reading_order := by
          rw [em_group_ro_cons2]
          exact min_le_right _ _
        refine ⟨?_, ?_, ?_⟩
        · intro m hm
          simp only [List.map_cons, List.mem_cons] at hm
          rcases hm with h | h
          · rw [h, em_group_type]
            exact h1 x (List.mem_cons_self _ _)
          · exact IH.1 m (by simp only [List.map_cons, List.mem_cons]; right; exact h)
        · simp only [List.map_cons]
          simp only [List.map_cons] at IH
          refine chain'_replace_head IH.2.1 ?_
          intro c hc
          exact lt_of_le_of_lt hrole hc
        · simp only [List.map_cons]
          simp only [List.map_cons] at IH
          refine chain'_replace_head IH.2.2 ?_
          intro c hc
          unfold non_adjacent blocks_adjacent at hc ⊢
          rw [hy2eq]
          exact hc
      · -- `x` forms its own singleton group
        have hGR : group_runs T (x :: y :: rest') = [x] :: (y :: g) :: gs := by
          simp only [group_runs, hg, hadj, Bool.false_eq_true,
            not_false_eq_true, if_neg]
        rw [hGR]
        have hy1eq : (em_group (y :: g)).bbox.y1 = y.bbox.y1 :=
          em_group_y1_eq_head y g htopyg
        have hroeq : (em_group (y :: g)).reading_order = y.reading_order :=
          em_group_ro_eq_head y g hroyg
        refine ⟨?_, ?_, ?_⟩
        · intro m hm
          simp only [List.map_cons, List.mem_cons] at hm
          rcases hm with h | h
          · rw [h]
            exact h1 x (List.mem_cons_self _ _)
          · refine IH.1 m ?_
            simp only [List.map_cons]
            exact List.mem_cons.2 h
        · simp only [List.map_cons]
          simp only [List.map_cons] at IH
          rw [List.chain'_cons]
          constructor
          · show ro_lt (em_group [x]) (em_group (y :: g))
            unfold ro_lt
            rw [hroeq]
            exact hxy_ro
          · exact IH.2.1
        · simp only [List.map_cons]
          simp only [List.map_cons] at IH
          rw [List.chain'_cons]
          constructor
          · show non_adjacent T (em_group [x]) (em_group (y :: g))
            unfold non_adjacent blocks_adjacent
            show (decide (|(em_group (y :: g)).bbox.y1 - x.bbox.y2| ≤ T)) = false
            rw [hy1eq]
            simpa [blocks_adjacent] using hadj
          · exact IH.2.2

instance : IsTrans DocumentElement ro_lt :=
  ⟨fun _ _ _ h h' => Nat.lt_trans h h'⟩

instance : IsTrans DocumentElement top_le :=
  ⟨fun _ _ _ h h' => le_trans h h'⟩

instance : IsTrans DocumentElement bot_le :=
  ⟨fun _ _ _ h h' => le_trans h h'⟩

lemma sortByRo_eq_of_chain {l : List DocumentElement}
    (h : List.Chain' ro_lt l) : sortByRo l = l := by
  apply List.Sorted.insertionSort_eq
  exact (List.chain'_iff_pairwise.1 h).imp (fun hab => le_of_lt hab)

/-- On a list whose consecutive elements are all non-adjacent, the
grouping loop produces only singleton groups. -/
lemma group_runs_of_nonadjacent (T : ℚ) :
    ∀ l : List DocumentElement, List.Chain' (non_adjacent T) l →
      group_runs T l = l.map (fun e => [e]) := by
  intro l
  induction l with
  | nil => intro _; rfl
  | cons x rest ih =>
    intro h
    cases rest with
    | nil => rfl
    | cons y rest' =>
      rw [List.chain'_cons] at h
      have hIH := ih h.2
      have hna : blocks_adjacent T x y = false := h.1
      simp only [group_runs, hIH, List.map_cons]
      rw [if_neg (by simp [hna])]

/-- A list of text elements with strictly increasing reading orders whose
consecutive elements are all farther apart than the threshold is a fixed
point of `merge_text_blocks`. -/
lemma merge_text_blocks_fixed (T : ℚ) (l : List DocumentElement)
    (h1 : ∀ e ∈ l, e.element_type = ElementType.text)
    (h2 : List.Chain' ro_lt l)
    (h3 : List.Chain' (non_adjacent T) l) :
    merge_text_blocks l T = l := by
  cases l with
  | nil => rfl
  | cons x ls =>
    have hfil : (x :: ls).filter (fun e => e.element_type == ElementType.text) =
        x :: ls :=
      List.filter_eq_self.mpr (fun a ha => by
        rw [h1 a ha]; rfl)
    have hother : (x :: ls).filter (fun e => !(e.element_type == ElementType.text)) =
        [] :=
      List.filter_eq_nil_iff.mpr (fun a ha => by
        rw [h1 a ha]; simp)
    simp only [merge_text_blocks, List.isEmpty_cons, hfil, hother,
      Bool.false_eq_true, if_false]
    by_cases hlen : (x :: ls).length ≤ 1
    · rw [if_pos hlen]
    · rw [if_neg hlen]
      rw [sortByRo_eq_of_chain h2, group_runs_of_nonadjacent T _ h3]
      have hflat : (((x :: ls).map (fun e => [e])).map emit_group).flatten = x :: ls := by
        induction (x :: ls) with
        | nil => rfl
        | cons a t iht =>
          simp only [List.map_cons, List.flatten_cons,
            emit_group_eq_singleton (List.cons_ne_nil a [])]
          rw [iht]
          rfl
      rw [hflat, List.append_nil, sortByRo_eq_of_chain h2]

/-- C1 (amended): `merge_text_blocks` is idempotent on lists containing
only text elements, presented in strictly increasing reading order with
non-decreasing top edges and non-decreasing bottom edges (vertically
monotone blocks).  Without the monotonicity assumption a second pass can
merge further, because a merged group's union box can extend below its
last member's bottom edge (see the counterexample). -/
theorem merge_text_blocks_idempotent_of_monotone (es : List DocumentElement)
    (T : ℚ)
    (h1 : ∀ e ∈ es, e.element_type = ElementType.text)
    (h2 : List.Chain' ro_lt es)
    (h3 : List.Chain' top_le es)
    (h4 : List.Chain' bot_le es) :
    merge_text_blocks (merge_text_blocks es T) T = merge_text_blocks es T := by
  by_cases hlen : es.length ≤ 1
  · have hself : merge_text_blocks es T = es := by
      cases es with
      | nil => rfl
      | cons x ls =>
        cases ls with
        | nil =>
          have hfil : [x].filter (fun e => e.element_type == ElementType.text) =
              [x] :=
            List.filter_eq_self.mpr (fun a ha => by rw [h1 a ha]; rfl)
          simp only [merge_text_blocks, List.isEmpty_cons, hfil,
            Bool.false_eq_true, if_false, List.length_singleton]
          rw [if_pos (by omega)]
        | cons y ls' => simp at hlen
    rw [hself, hself]
  · -- at least two elements: the first pass produces the emitted groups
    have hfil : es.filter (fun e => e.element_type == ElementType.text) = es :=
      List.filter_eq_self.mpr (fun a ha => by rw [h1 a ha]; rfl)
    have hother : es.filter (fun e => !(e.element_type == ElementType.text)) = [] :=
      List.filter_eq_nil_iff.mpr (fun a ha => by rw [h1 a ha]; simp)
    have hmaster := merged_chains T es h1
      (List.chain'_iff_pairwise.1 h2)
      (List.chain'_iff_pairwise.1 h3)
      (List.chain'_iff_pairwise.1 h4)
    have hM : merge_text_blocks es T = (group_runs T es).map em_group := by
      cases es with
      | nil => simp at hlen
      | cons x ls =>
        simp only [merge_text_blocks, List.isEmpty_cons, hfil, hother,
          Bool.false_eq_true, if_false]
        rw [if_neg hlen]
        rw [sortByRo_eq_of_chain h2]
        show sortByRo ((((group_runs T (x :: ls)).map emit_group).flatten) ++ []) = _
        rw [flatten_emit_eq_map _ (group_runs_ne_nil T (x :: ls)),
          List.append_nil]
        exact sortByRo_eq_of_chain hmaster.2.1
    rw [hM]
    exact merge_text_blocks_fixed T _ hmaster.1 hmaster.2.1 hmaster.2.2

/-- First element of the idempotence witness list. -/
def c1wA : DocumentElement := ⟨ElementType.text, ⟨0, 0, 10, 10⟩, "a", 0, 0, []⟩

/-- Second element of the idempotence witness list. -/
def c1wB : DocumentElement := ⟨ElementType.text, ⟨0, 5, 10, 20⟩, "b", 0, 1, []⟩

/-- Witness for `merge_text_blocks_idempotent_of_monotone` on a concrete
two-element vertically monotone list. -/
theorem merge_text_blocks_idempotent_witness :
    merge_text_blocks (merge_text_blocks [c1wA, c1wB] 50) 50 =
      merge_text_blocks [c1wA, c1wB] 50 :=
  merge_text_blocks_idempotent_of_monotone [c1wA, c1wB] 50
    (by intro e he
        rcases List.mem_cons.1 he with h | h
        · rw [h]; rfl
        · rcases List.mem_cons.1 h with h' | h'
          · rw [h']; rfl
          · simp at h')
    (by simp [List.chain'_cons, ro_lt, c1wA, c1wB])
    (by simp only [List.chain'_cons, List.chain'_singleton, and_true]
        norm_num [top_le, c1wA, c1wB])
    (by simp only [List.chain'_cons, List.chain'_singleton, and_true]
        norm_num [bot_le, c1wA, c1wB])

/-! ## C7: `parse_layout_string` (`src/utils/parsing_utils.py` lines 12-33)

`re.finditer` with the pattern
`\[(\d*\.?\d+),\s*(\d*\.?\d+),\s*(\d*\.?\d+),\s*(\d*\.?\d+)\]\s*(\w+)`
scans left to right, emitting non-overlapping matches and advancing one
character when no match starts at the current position.  Since every
match starts with a literal `[`, only `[` positions can start a match.
The number group `\d*\.?\d+` followed by a literal (`,` or `]`) matches
exactly a maximal digit run, optionally followed by `.` and a maximal
nonempty digit run; when the `.` is not followed by a digit the engine
backtracks to the bare integer part.  `\s` and `\w` are embedded as
their ASCII classes (the layout text is model output in ASCII). -/

/-- Python's `\s` class (ASCII). -/
def pyIsSpace (c : Char) : Bool :=
  c = ' ' || c = '\t' || c = '\n' || c = '\r' || c = '\x0b' || c = '\x0c'

/-- Python's `\w` class (ASCII): digits, letters and underscore. -/
def pyIsWord (c : Char) : Bool :=
  (48 ≤ c.toNat ∧ c.toNat ≤ 57) ∨ (65 ≤ c.toNat ∧ c.toNat ≤ 90) ∨
    (97 ≤ c.toNat ∧ c.toNat ≤ 122) ∨ c = '_'

/-- Numeric value of a digit run. -/
def digitsVal (l : List Char) : ℕ :=
  l.foldl (fun acc c => 10 * acc + (c.toNat - 48)) 0

/-- Match the group `\d*\.?\d+` at the head of `l` (with a literal
continuation): returns the matched value as `float` does, and the
remaining characters. -/
def parse_number (l : List Char) : Option (ℚ × List Char) :=
  let intPart := l.takeWhile Char.isDigit
  let rest1 := l.dropWhile Char.isDigit
  match rest1 with
  | c :: rest2 =>
    if c = '.' then
      let fracPart := rest2.takeWhile Char.isDigit
      let rest3 := rest2.dropWhile Char.isDigit
      if fracPart.isEmpty then
        if intPart.isEmpty then none
        else some ((digitsVal intPart : ℚ), rest1)
      else
        some ((digitsVal intPart : ℚ) +
          (digitsVal fracPart : ℚ) / 10 ^ fracPart.length, rest3)
    else
      if intPart.isEmpty then none else some ((digitsVal intPart : ℚ), rest1)
  | [] =>
    if intPart.isEmpty then none else some ((digitsVal intPart : ℚ), rest1)

/-- Match `,\s*` then a number group. -/
def expect_comma_num (l : List Char) : Option (ℚ × List Char) :=
  match l with
  | c :: r => if c = ',' then parse_number (r.dropWhile pyIsSpace) else none
  | [] => none

/-- Python `str.strip()` on a character list. -/
def pyStrip (l : List Char) : List Char :=
  ((l.dropWhile pyIsSpace).reverse.dropWhile pyIsSpace).reverse

/-- Try to complete a match immediately after an opening `[`:
four comma-separated number groups, `]`, optional whitespace, and a
nonempty word-character label, which is stripped and lowercased
(`match.group(5).strip().lower()`). -/
def try_match_after_bracket (cs : List Char) :
    Option ((List ℚ × String) × List Char) :=
  match parse_number cs with
  | none => none
  | some (n1, r1) =>
  match expect_comma_num r1 with
  | none => none
  | some (n2, r2) =>
  match expect_comma_num r2 with
  | none => none
  | some (n3, r3) =>
  match expect_comma_num r3 with
  | none => none
  | some (n4, r4) =>
  match r4 with
  | c :: r5 =>
    if c = ']' then
      let r6 := r5.dropWhile pyIsSpace
      let word := r6.takeWhile pyIsWord
      let r7 := r6.dropWhile pyIsWord
      if word.isEmpty then none
      else some (([n1, n2, n3, n4],
        String.mk ((pyStrip word).map Char.toLower)), r7)
    else none
  | [] => none

lemma dropWhile_length_le {α : Type} (p : α → Bool) (l : List α) :
    (l.dropWhile p).length ≤ l.length :=
  (List.dropWhile_sublist p).length_le

lemma parse_number_length {l : List Char} {q : ℚ} {r : List Char}
    (h : parse_number l = some (q, r)) : r.length ≤ l.length := by
  have hd : (l.dropWhile Char.isDigit).length ≤ l.length :=
    dropWhile_length_le Char.isDigit l
  simp only [parse_number] at h
  cases hrest : l.dropWhile Char.isDigit with
  | nil =>
    rw [hrest] at h hd
    simp only at h
    split_ifs at h
    simp only [Option.some.injEq, Prod.mk.injEq] at h
    rw [← h.2]
    simp only [List.length_nil] at hd ⊢
    exact hd
  | cons c rest2 =>
    rw [hrest] at h hd
    simp only at h
    split_ifs at h with hc h1 h2 h3
    · simp only [Option.some.injEq, Prod.mk.injEq] at h
      rw [← h.2]
      exact hd
    · simp only [Option.some.injEq, Prod.mk.injEq] at h
      rw [← h.2]
      calc (rest2.dropWhile Char.isDigit).length
          ≤ rest2.length := dropWhile_length_le _ _
        _ ≤ (c :: rest2).length := by simp
        _ ≤ l.length := hd
    · simp only [Option.some.injEq, Prod.mk.injEq] at h
      rw [← h.2]
      exact hd

lemma expect_comma_num_length {l : List Char} {q : ℚ} {r : List Char}
    (h : expect_comma_num l = some (q, r)) : r.length ≤ l.length := by
  simp only [expect_comma_num] at h
  cases l with
  | nil => exact absurd h (by simp)
  | cons c r' =>
    simp only at h
    split_ifs at h with hc
    calc r.length ≤ (r'.dropWhile pyIsSpace).length := parse_number_length h
      _ ≤ r'.length := dropWhile_length_le _ _
      _ ≤ (c :: r').length := by simp

lemma try_match_length {cs : List Char} {e : List ℚ × String} {r : List Char}
    (h : try_match_after_bracket cs = some (e, r)) : r.length ≤ cs.length := by
  simp only [try_match_after_bracket] at h
  split at h
  · exact absurd h (by simp)
  · rename_i n1 r1 h1
    split at h
    · exact absurd h (by simp)
    · rename_i n2 r2 h2
      split at h
      · exact absurd h (by simp)
      · rename_i n3 r3 h3
        split at h
        · exact absurd h (by simp)
        · rename_i n4 r4 h4
          have hr4 : r4.length ≤ cs.length :=
            calc r4.length ≤ r3.length := expect_comma_num_length h4
              _ ≤ r2.length := expect_comma_num_length h3
              _ ≤ r1.length := expect_comma_num_length h2
              _ ≤ cs.length := parse_number_length h1
          cases hr : r4 with
          | nil => rw [hr] at h; exact absurd h (by simp)
          | cons c r5 =>
            rw [hr] at h hr4
            simp only at h
            split_ifs at h with hc hw
            simp only [Option.some.injEq, Prod.mk.injEq] at h
            rw [← h.2]
            calc ((r5.dropWhile pyIsSpace).dropWhile pyIsWord).length
                ≤ (r5.dropWhile pyIsSpace).length := dropWhile_length_le _ _
              _ ≤ r5.length := dropWhile_length_le _ _
              _ ≤ (c :: r5).length := by simp
              _ ≤ cs.length := hr4

/-- The `re.finditer` scan of `parse_layout_string`, with explicit fuel
to keep the recursion structural (each step consumes at least one
character, so `l.length` fuel always suffices; see
`parse_layout_fuel_congr`): at each position, a match can only start at
a literal `[`; on a successful match the scan resumes after the match,
otherwise it advances one character. -/
def parse_layout_fuel : ℕ → List Char → List (List ℚ × String)
  | 0, _ => []
  | _ + 1, [] => []
  | f + 1, c :: cs =>
    if c = '[' then
      match try_match_after_bracket cs with
      | some (e, rest) => e :: parse_layout_fuel f rest
      | none => parse_layout_fuel f cs
    else parse_layout_fuel f cs

/-- The finditer scan with adequate fuel. -/
def parse_layout_chars (l : List Char) : List (List ℚ × String) :=
  parse_layout_fuel l.length l

/-- The fuel value is irrelevant as long as it covers the remaining
length. -/
lemma parse_layout_fuel_congr :
    ∀ (f g : ℕ) (l : List Char), l.length ≤ f → l.length ≤ g →
      parse_layout_fuel f l = parse_layout_fuel g l := by
  intro f
  induction f with
  | zero =>
    intro g l hf hg
    rw [List.length_eq_zero.1 (Nat.le_zero.1 hf)]
    cases g <;> rfl
  | succ f ih =>
    intro g l hf hg
    cases l with
    | nil => cases g <;> rfl
    | cons c cs =>
      cases g with
      | zero => simp at hg
      | succ g' =>
        simp only [parse_layout_fuel]
        by_cases hc : c = '['
        · rw [if_pos hc, if_pos hc]
          cases htm : try_match_after_bracket cs with
          | none =>
            simp only
            exact ih g' cs (by simpa using hf) (by simpa using hg)
          | some er =>
            obtain ⟨e, rest⟩ := er
            simp only
            rw [ih g' rest (le_trans (try_match_length htm) (by simpa using hf))
              (le_trans (try_match_length htm) (by simpa using hg))]
        · rw [if_neg hc, if_neg hc]
          exact ih g' cs (by simpa using hf) (by simpa using hg)

lemma parse_layout_chars_nil : parse_layout_chars [] = [] := rfl

/-- One-step unfolding of the scan. -/
lemma parse_layout_chars_cons (c : Char) (cs : List Char) :
    parse_layout_chars (c :: cs) =
      (if c = '[' then
        match try_match_after_bracket cs with
        | some (e, rest) => e :: parse_layout_chars rest
        | none => parse_layout_chars cs
      else parse_layout_chars cs) := by
  show parse_layout_fuel (cs.length + 1) (c :: cs) = _
  simp only [parse_layout_fuel]
  by_cases hc : c = '['
  · rw [if_pos hc, if_pos hc]
    cases htm : try_match_after_bracket cs with
    | none => rfl
    | some er =>
      obtain ⟨e, rest⟩ := er
      simp only
      rw [parse_layout_fuel_congr cs.length rest.length rest
        (try_match_length htm) (le_refl _)]
      rfl
  · rw [if_neg hc, if_neg hc]
    rfl

/-- `parse_layout_string(bbox_str)` from `src/utils/parsing_utils.py`
lines 12-33. -/
def parse_layout_string (bbox_str : String) : List (List ℚ × String) :=
  parse_layout_chars bbox_str.data

lemma char_toNat_ofNat {n : ℕ} (h : n < 55296) : (Char.ofNat n).toNat = n := by
  unfold Char.ofNat
  rw [dif_pos (Or.inl (by omega))]
  rfl

lemma char_toLower_idem (c : Char) : c.toLower.toLower = c.toLower := by
  simp only [Char.toLower]
  by_cases h : c.toNat ≥ 65 ∧ c.toNat ≤ 90
  · rw [if_pos h]
    have hv : (Char.ofNat (c.toNat + 32)).toNat = c.toNat + 32 :=
      char_toNat_ofNat (by omega)
    rw [if_neg (by rw [hv]; omega)]
  · rw [if_neg h, if_neg h]

lemma pyIsWord_toLower {c : Char} (h : pyIsWord c = true) :
    pyIsWord c.toLower = true := by
  simp only [Char.toLower]
  by_cases hc : c.toNat ≥ 65 ∧ c.toNat ≤ 90
  · rw [if_pos hc]
    have hv : (Char.ofNat (c.toNat + 32)).toNat = c.toNat + 32 :=
      char_toNat_ofNat (by omega)
    simp only [pyIsWord, decide_eq_true_eq, hv]
    right; right; left
    omega
  · rw [if_neg hc]
    exact h

lemma mem_pyStrip {c : Char} {l : List Char} (h : c ∈ pyStrip l) : c ∈ l := by
  unfold pyStrip at h
  have h1 := List.mem_reverse.1 h
  have h2 := (List.dropWhile_sublist pyIsSpace).subset h1
  have h3 := List.mem_reverse.1 h2
  exact (List.dropWhile_sublist pyIsSpace).subset h3

/-- Every character of a matched label is a lowercase-normalized word
character. -/
lemma try_match_label {cs : List Char} {e : List ℚ × String} {r : List Char}
    (h : try_match_after_bracket cs = some (e, r)) :
    ∀ c ∈ e.2.data, c.toLower = c ∧ pyIsWord c = true := by
  simp only [try_match_after_bracket] at h
  split at h
  · exact absurd h (by simp)
  · split at h
    · exact absurd h (by simp)
    · split at h
      · exact absurd h (by simp)
      · split at h
        · exact absurd h (by simp)
        · rename_i n4 r4 h4
          cases hr : r4 with
          | nil => rw [hr] at h; exact absurd h (by simp)
          | cons c' r5 =>
            rw [hr] at h
            simp only at h
            split_ifs at h with hc hw
            simp only [Option.some.injEq, Prod.mk.injEq] at h
            intro c hcmem
            have hdata : e.2.data =
                ((pyStrip ((r5.dropWhile pyIsSpace).takeWhile pyIsWord)).map
                  Char.toLower) := by
              rw [← h.1]
            rw [hdata] at hcmem
            obtain ⟨c0, hc0, rfl⟩ := List.mem_map.1 hcmem
            have hcw : c0 ∈ (r5.dropWhile pyIsSpace).takeWhile pyIsWord :=
              mem_pyStrip hc0
            have hword : pyIsWord c0 = true := List.mem_takeWhile_imp hcw
            exact ⟨char_toLower_idem c0, pyIsWord_toLower hword⟩

/-- Characters before the first `[` are skipped without affecting the
result. -/
lemma parse_layout_chars_append {s : List Char} (hs : '[' ∉ s) :
    ∀ t : List Char, parse_layout_chars (s ++ t) = parse_layout_chars t := by
  induction s with
  | nil => intro t; rfl
  | cons c s' ih =>
    intro t
    have hc : ¬(c = '[') := fun h => hs (h ▸ List.mem_cons_self _ _)
    rw [List.cons_append, parse_layout_chars_cons]
    rw [if_neg hc]
    exact ih (fun h => hs (List.mem_cons_of_mem _ h)) t

lemma parse_layout_chars_label :
    ∀ (n : ℕ) (l : List Char), l.length ≤ n →
      ∀ p ∈ parse_layout_chars l, ∀ c ∈ p.2.data,
        c.toLower = c ∧ pyIsWord c = true := by
  intro n
  induction n with
  | zero =>
    intro l hl p hp
    rw [List.length_eq_zero.1 (Nat.le_zero.1 hl)] at hp
    simp [parse_layout_chars_nil] at hp
  | succ n ih =>
    intro l hl p hp
    cases l with
    | nil => simp [parse_layout_chars_nil] at hp
    | cons c cs =>
      rw [parse_layout_chars_cons] at hp
      by_cases hc : c = '['
      · rw [if_pos hc] at hp
        split at hp
        · rename_i e rest htm
          rcases List.mem_cons.1 hp with h | h
          · rw [h]
            exact try_match_label htm
          · have hlen : rest.length ≤ n :=
              le_trans (try_match_length htm) (by simpa using hl)
            exact ih rest hlen p h
        · exact ih cs (by simpa using hl) p hp
      · rw [if_neg hc] at hp
        exact ih cs (by simpa using hl) p hp

/-- C7: the layout parser is total and never fails; text before a
bracket (any malformed span contains no `[` up to the next candidate
match) is silently skipped without affecting the output; a string with
no bracket yields the empty sequence; and every returned label is
normalized: each of its characters is a word character already fixed by
lowercasing (so the label is lowercased and has nothing to trim). -/
theorem parse_layout_string_props :
    (∀ s t : List Char, '[' ∉ s →
        parse_layout_chars (s ++ t) = parse_layout_chars t) ∧
    (∀ s : String, '[' ∉ s.data → parse_layout_string s = []) ∧
    (∀ l : List Char, ∀ p ∈ parse_layout_chars l, ∀ c ∈ p.2.data,
        c.toLower = c ∧ pyIsWord c = true) := by
  refine ⟨fun s t hs => parse_layout_chars_append hs t, fun s hs => ?_,
    fun l p hp => parse_layout_chars_label l.length l (le_refl _) p hp⟩
  have h := parse_layout_chars_append hs []
  rw [List.append_nil] at h
  rw [parse_layout_string, h, parse_layout_chars_nil]

/-- Witness for `parse_layout_string_props`: a junk prefix is skipped, a
bracket-free string parses to the empty sequence, and the label of the
spec's example region is lowercased (`"Text"` comes back as `"text"`). -/
theorem parse_layout_string_props_witness :
    parse_layout_chars ("xy".data ++ "[0.1,0.2,0.3,0.4] Text".data) =
      parse_layout_chars "[0.1,0.2,0.3,0.4] Text".data ∧
    parse_layout_string "no layout here" = [] ∧
    (('t' : Char).toLower = 't' ∧ pyIsWord 't' = true) ∧
    (parse_layout_string "[0.1,0.1,0.3,0.2] Text").map Prod.snd = ["text"] :=
  ⟨parse_layout_string_props.1 "xy".data "[0.1,0.2,0.3,0.4] Text".data (by decide),
   parse_layout_string_props.2.1 "no layout here" (by decide),
   parse_layout_string_props.2.2 "[0.1,0.1,0.3,0.2] Text".data
     ([1/10, 1/10, 3/10, 2/10], "text") (by decide) 't' (by decide),
   by decide⟩

/-! ## Batch dispatcher (`async_dolphin.py` lines 345-389,
`enhanced_main.py` lines 355-408, `main.py` lines 268-299)

The crop payload of a pending element is the padded-space region it was
cut from; its pixel content never influences the dispatcher.  The
external batch-recognition call (`self.chat` / `self.chat_batch`) is an
oracle that receives the prompts and crops and either returns a list of
texts or raises. -/

/-- The padded-space region a pending element was cropped from. -/
abbrev Crop := ℤ × ℤ × ℤ × ℤ

/-- The batch-recognition interface: may raise (`Except.error`). -/
abbrev ChatOracle := List String → List Crop → Except Unit (List String)

/-- The pending element dicts built by
`AsyncDolphinEngine._process_elements` (lines 305-309). -/
structure PendingElem where
  crop : Crop
  bbox : Box
  reading_order : ℕ
deriving DecidableEq, Repr

/-- The pending element dicts built by
`xDANVisionEngine._process_elements` (lines 292-320). -/
structure PendingDict where
  element_id : String
  type : String
  bbox : Box
  reading_order : ℕ
  crop : Crop
deriving DecidableEq, Repr

/-- `range(0, len(elements), max_batch_size)` slicing, with explicit
fuel to keep the recursion structural (`max_batch_size = 0` raises
`ValueError` in Python; every caller passes a positive batch size, and
all lemmas assume `0 < b`). -/
def chunksFuel {α : Type} (b : ℕ) : ℕ → List α → List (List α)
  | _, [] => []
  | 0, _ :: _ => []
  | f + 1, x :: xs => (x :: xs).take b :: chunksFuel b f ((x :: xs).drop b)

/-- The contiguous chunks of at most `b` elements. -/
def chunksOf {α : Type} (b : ℕ) (l : List α) : List (List α) :=
  chunksFuel b l.length l

lemma chunksFuel_congr {α : Type} {b : ℕ} (hb : 0 < b) :
    ∀ (f g : ℕ) (l : List α), l.length ≤ f → l.length ≤ g →
      chunksFuel b f l = chunksFuel b g l := by
  intro f
  induction f with
  | zero =>
    intro g l hf hg
    rw [List.length_eq_zero.1 (Nat.le_zero.1 hf)]
    cases g <;> rfl
  | succ f ih =>
    intro g l hf hg
    cases l with
    | nil => cases g <;> rfl
    | cons x xs =>
      cases g with
      | zero => simp at hg
      | succ g' =>
        simp only [chunksFuel]
        rw [ih g' ((x :: xs).drop b) ?_ ?_]
        · simp only [List.length_drop, List.length_cons]
          simp only [List.length_cons] at hf
          omega
        · simp only [List.length_drop, List.length_cons]
          simp only [List.length_cons] at hg
          omega

/-- One-step unfolding of the chunking. -/
lemma chunksOf_cons {α : Type} {b : ℕ} (hb : 0 < b) (x : α) (xs : List α) :
    chunksOf b (x :: xs) = (x :: xs).take b :: chunksOf b ((x :: xs).drop b) := by
  show chunksFuel b (xs.length + 1) (x :: xs) = _
  simp only [chunksFuel]
  rw [chunksFuel_congr hb xs.length ((x :: xs).drop b).length ((x :: xs).drop b)]
  · rfl
  · simp only [List.length_drop, List.length_cons]
    omega
  · exact le_refl _

lemma chunksOf_nil {α : Type} (b : ℕ) : chunksOf b ([] : List α) = [] := rfl

/-- Chunking a list no longer than the batch size gives one chunk. -/
lemma chunksOf_small {α : Type} {b : ℕ} (hb : 0 < b) (x : α) (xs : List α)
    (h : (x :: xs).length ≤ b) : chunksOf b (x :: xs) = [x :: xs] := by
  rw [chunksOf_cons hb, List.take_of_length_le h, List.drop_of_length_le h,
    chunksOf_nil]

/-- The chunks flatten back to the input list. -/
lemma chunksOf_flatten {α : Type} {b : ℕ} (hb : 0 < b) :
    ∀ (n : ℕ) (l : List α), l.length ≤ n → (chunksOf b l).flatten = l := by
  intro n
  induction n with
  | zero =>
    intro l hl
    rw [List.length_eq_zero.1 (Nat.le_zero.1 hl)]
    rfl
  | succ n ih =>
    intro l hl
    cases l with
    | nil => rfl
    | cons x xs =>
      rw [chunksOf_cons hb, List.flatten_cons, ih ((x :: xs).drop b) ?_,
        List.take_append_drop]
      simp only [List.length_drop, List.length_cons]
      simp only [List.length_cons] at hl
      omega

/-- Chunking distributes over an append at a chunk boundary. -/
lemma chunksOf_append {α : Type} {b : ℕ} (hb : 0 < b) :
    ∀ (n : ℕ) (l₁ l₂ : List α), l₁.length ≤ n → b ∣ l₁.length →
      chunksOf b (l₁ ++ l₂) = chunksOf b l₁ ++ chunksOf b l₂ := by
  intro n
  induction n with
  | zero =>
    intro l₁ l₂ h1 _
    rw [List.length_eq_zero.1 (Nat.le_zero.1 h1)]
    rfl
  | succ n ih =>
    intro l₁ l₂ h1 hdvd
    cases l₁ with
    | nil => rfl
    | cons x xs =>
      have hble : b ≤ (x :: xs).length := by
        rcases hdvd with ⟨k, hk⟩
        rcases Nat.eq_zero_or_pos k with h0 | hkpos
        · rw [h0, Nat.mul_zero] at hk
          simp at hk
        · calc b = b * 1 := (Nat.mul_one b).symm
            _ ≤ b * k := Nat.mul_le_mul_left b hkpos
            _ = (x :: xs).length := hk.symm
      cases hl2 : l₂ with
      | nil =>
        rw [List.append_nil, chunksOf_nil, List.append_nil]
      | cons y ys =>
        rw [← hl2]
        have hcons : (x :: xs) ++ l₂ = x :: (xs ++ l₂) := rfl
        rw [hcons, chunksOf_cons hb, chunksOf_cons hb x xs]
        have htake : (x :: (xs ++ l₂)).take b = (x :: xs).take b := by
          rw [← hcons]
          exact List.take_append_of_le_length hble
        have hdrop : (x :: (xs ++ l₂)).drop b = (x :: xs).drop b ++ l₂ := by
          rw [← hcons]
          exact List.drop_append_of_le_length hble
        rw [htake, hdrop, ih ((x :: xs).drop b) l₂ ?_ ?_]
        · rfl
        · simp only [List.length_drop, List.length_cons]
          simp only [List.length_cons] at h1
          omega
        · simp only [List.length_drop]
          rcases hdvd with ⟨k, hk⟩
          refine ⟨k - 1, ?_⟩
          rw [hk]
          cases k with
          | zero => simp
          | succ k' =>
            rw [Nat.succ_sub_one, Nat.mul_succ]
            omega

/-- `"table" in s` (Python substring containment, used as
`"table" in prompt.lower()`). -/
def startsWithChars : List Char → List Char → Bool
  | [], _ => true
  | _ :: _, [] => false
  | p :: ps, c :: cs => p = c && startsWithChars ps cs

/-- Python `pat in s` on character lists. -/
def containsSub (pat : List Char) : List Char → Bool
  | [] => startsWithChars pat []
  | c :: cs => startsWithChars pat (c :: cs) || containsSub pat cs

/-- `AsyncDolphinEngine._process_element_batch(elements, prompt,
max_batch_size)` from `src/engines/async_dolphin.py` lines 345-389.
Each chunk issues one `chat` call; on success the returned texts are
zipped positionally onto the chunk (surplus pending elements are
silently dropped by `zip`), the element type is table exactly when the
prompt mentions "table", and confidence/metadata keep the
`DocumentElement` defaults; on failure every element of the chunk
becomes an empty-text element with element type forced to `text`,
default confidence `0.0` and default empty metadata, and the loop
continues with the next chunk. -/
def async_process_element_batch (chat : ChatOracle)
    (elements : List PendingElem) (prompt : String) (max_batch_size : ℕ) :
    List DocumentElement :=
  ((chunksOf max_batch_size elements).map (fun batch =>
    let crops := batch.map (fun e => e.crop)
    let prompts := List.replicate crops.length prompt
    match chat prompts crops with
    | Except.ok texts =>
      (batch.zip texts).map (fun p =>
        ⟨if containsSub "table".data (prompt.data.map Char.toLower) then
            ElementType.table else ElementType.text,
         p.1.bbox, p.2, 0, p.1.reading_order, []⟩)
    | Except.error _ =>
      batch.map (fun elem =>
        ⟨ElementType.text, elem.bbox, "", 0, elem.reading_order, []⟩))).flatten

/-- `xDANVisionEngine._process_element_batch(elements, prompt, request)`
from `src/api/enhanced_main.py` lines 355-408.  On success each element
gets the stripped text, its own type, empty metadata, and (when
`include_confidence`) the proxy confidence `min(1.0, len(text)/100.0)`;
on failure every element of the chunk gets empty text, confidence `0.0`
and the metadata flag `{"error": "Processing failed"}`, and the loop
continues with the next chunk. -/
def enhanced_process_element_batch (chat_batch : ChatOracle)
    (elements : List PendingDict) (prompt : String) (max_batch_size : ℕ)
    (include_confidence : Bool) : List EDict :=
  ((chunksOf max_batch_size elements).map (fun batch =>
    let crops := batch.map (fun e => e.crop)
    let prompts := List.replicate crops.length prompt
    match chat_batch prompts crops with
    | Except.ok texts =>
      (batch.zip texts).map (fun p =>
        ⟨p.1.element_id, p.1.type, p.1.bbox, p.2.trim,
         if include_confidence then
           some (min 1 ((p.2.length : ℚ) / 100)) else none,
         p.1.reading_order, []⟩)
    | Except.error _ =>
      batch.map (fun elem =>
        ⟨elem.element_id, elem.type, elem.bbox, "", some 0,
         elem.reading_order,
         [("error", MetaVal.str "Processing failed")]⟩))).flatten

lemma flatten_map_chunks {α β : Type} {b : ℕ} (hb : 0 < b) (f : α → β)
    (l : List α) :
    ((chunksOf b l).map (fun ch => ch.map f)).flatten = l.map f := by
  rw [← List.map_flatten, chunksOf_flatten hb l.length l (le_refl _)]

/-- The pending element dicts built by the third engine variant,
`AsyncDolphinEngine._process_elements` in `src/api/main.py` (lines
228-235): crop, bbox, reading order, and the type string (`"table"` for
the `tab` label, `"text"` otherwise). -/
structure PendingMain where
  crop : Crop
  bbox : Box
  reading_order : ℕ
  type : String
deriving DecidableEq, Repr

/-- The plain result dicts emitted by
`AsyncDolphinEngine._process_element_batch` in `src/api/main.py` (lines
279-296): type, bbox, text and reading order only — no confidence and
no metadata key. -/
structure MainOut where
  type : String
  bbox : Box
  text : String
  reading_order : ℕ
deriving DecidableEq, Repr

/-- `AsyncDolphinEngine._process_element_batch(elements, prompt,
max_batch_size)` from `src/api/main.py` lines 268-299.  On success the
returned texts are zipped positionally onto the chunk and each element
keeps its own type with the stripped text; on failure every element of
the chunk becomes an empty-text dict that also keeps its own type
(`"table"` stays `"table"`), and the loop continues with the next
chunk.  Neither branch writes a confidence or metadata key. -/
def main_process_element_batch (chat_batch : ChatOracle)
    (elements : List PendingMain) (prompt : String) (max_batch_size : ℕ) :
    List MainOut :=
  ((chunksOf max_batch_size elements).map (fun batch =>
    let crops := batch.map (fun e => e.crop)
    let prompts := List.replicate crops.length prompt
    match chat_batch prompts crops with
    | Except.ok texts =>
      (batch.zip texts).map (fun p =>
        ⟨p.1.type, p.1.bbox, String.mk (pyStrip p.2.data), p.1.reading_order⟩)
    | Except.error _ =>
      batch.map (fun elem =>
        ⟨elem.type, elem.bbox, "", elem.reading_order⟩))).flatten

/-- C3-counterexample: in the async engine a failed table chunk yields
elements with *empty* metadata (no failure flag) and element type forced
to `text`, refuting the claim that every failed element carries a
metadata flag marking the failure. -/
theorem async_failed_chunk_no_flag :
    (async_process_element_batch (fun _ _ => Except.error ())
        [⟨(0, 0, 10, 10), ⟨0, 0, 10, 10⟩, 3⟩]
        "Parse the table in the image." 16).map (fun e => e.metadata) = [[]] ∧
    (async_process_element_batch (fun _ _ => Except.error ())
        [⟨(0, 0, 10, 10), ⟨0, 0, 10, 10⟩, 3⟩]
        "Parse the table in the image." 16).map (fun e => e.element_type) =
      [ElementType.text] := by decide

/-- C3 (amended): when the batch-recognition call raises, every element
of the failed chunk degrades to an empty-text placeholder and the
remaining chunks are unaffected.  Only the enhanced engine
(`enhanced_main.py`) marks the failure: its placeholder has confidence
`0.0` and the metadata flag `{"error": "Processing failed"}`.  In the
async engine (`async_dolphin.py`) the placeholder has the default
confidence `0.0` but *empty* metadata and its element type forced to
`text` even for table chunks.  The third variant (`api/main.py`) emits
plain dicts that keep each element's own type (`"table"` stays
`"table"`) and carry no confidence and no metadata key at all.  In all
three, chunks are processed independently: at any chunk boundary the
dispatcher output decomposes, so a failing chunk can never influence
elements produced from other chunks or abort the page. -/
theorem chunk_failure_degradation :
    (∀ (es : List PendingDict) (prompt : String) (b : ℕ) (ic : Bool), 0 < b →
      enhanced_process_element_batch (fun _ _ => Except.error ()) es prompt b ic =
        es.map (fun elem => ⟨elem.element_id, elem.type, elem.bbox, "", some 0,
          elem.reading_order, [("error", MetaVal.str "Processing failed")]⟩)) ∧
    (∀ (es : List PendingElem) (prompt : String) (b : ℕ), 0 < b →
      async_process_element_batch (fun _ _ => Except.error ()) es prompt b =
        es.map (fun elem => ⟨ElementType.text, elem.bbox, "", 0,
          elem.reading_order, []⟩)) ∧
    (∀ (es : List PendingMain) (prompt : String) (b : ℕ), 0 < b →
      main_process_element_batch (fun _ _ => Except.error ()) es prompt b =
        es.map (fun elem => ⟨elem.type, elem.bbox, "", elem.reading_order⟩)) ∧
    (∀ (chat : ChatOracle) (l₁ l₂ : List PendingDict) (prompt : String)
        (b : ℕ) (ic : Bool), 0 < b → b ∣ l₁.length →
      enhanced_process_element_batch chat (l₁ ++ l₂) prompt b ic =
        enhanced_process_element_batch chat l₁ prompt b ic ++
          enhanced_process_element_batch chat l₂ prompt b ic) ∧
    (∀ (chat : ChatOracle) (l₁ l₂ : List PendingElem) (prompt : String)
        (b : ℕ), 0 < b → b ∣ l₁.length →
      async_process_element_batch chat (l₁ ++ l₂) prompt b =
        async_process_element_batch chat l₁ prompt b ++
          async_process_element_batch chat l₂ prompt b) ∧
    (∀ (chat : ChatOracle) (l₁ l₂ : List PendingMain) (prompt : String)
        (b : ℕ), 0 < b → b ∣ l₁.length →
      main_process_element_batch chat (l₁ ++ l₂) prompt b =
        main_process_element_batch chat l₁ prompt b ++
          main_process_element_batch chat l₂ prompt b) := by
  refine ⟨fun es prompt b ic hb => ?_, fun es prompt b hb => ?_,
    fun es prompt b hb => ?_,
    fun chat l₁ l₂ prompt b ic hb hdvd => ?_,
    fun chat l₁ l₂ prompt b hb hdvd => ?_,
    fun chat l₁ l₂ prompt b hb hdvd => ?_⟩
  · exact flatten_map_chunks hb _ es
  · exact flatten_map_chunks hb _ es
  · exact flatten_map_chunks hb _ es
  · unfold enhanced_process_element_batch
    rw [chunksOf_append hb l₁.length l₁ l₂ (le_refl _) hdvd, List.map_append,
      List.flatten_append]
  · unfold async_process_element_batch
    rw [chunksOf_append hb l₁.length l₁ l₂ (le_refl _) hdvd, List.map_append,
      List.flatten_append]
  · unfold main_process_element_batch
    rw [chunksOf_append hb l₁.length l₁ l₂ (le_refl _) hdvd, List.map_append,
      List.flatten_append]

/-- Witness for `chunk_failure_degradation` on concrete failed one-table
batches of all three engines (the `main.py` variant keeps the `"table"`
type, the async engine does not) and a concrete chunk-boundary split. -/
theorem chunk_failure_degradation_witness :
    enhanced_process_element_batch (fun _ _ => Except.error ())
        [⟨"id0", "table", ⟨0, 0, 10, 10⟩, 2, (0, 0, 10, 10)⟩]
        "Parse the table in the image." 16 true =
      [⟨"id0", "table", ⟨0, 0, 10, 10⟩, "", some 0, 2,
        [("error", MetaVal.str "Processing failed")]⟩] ∧
    async_process_element_batch (fun _ _ => Except.error ())
        [⟨(0, 0, 10, 10), ⟨0, 0, 10, 10⟩, 2⟩] "Read text in the image." 1 =
      [⟨ElementType.text, ⟨0, 0, 10, 10⟩, "", 0, 2, []⟩] ∧
    main_process_element_batch (fun _ _ => Except.error ())
        [⟨(0, 0, 10, 10), ⟨0, 0, 10, 10⟩, 2, "table"⟩]
        "Parse the table in the image." 16 =
      [⟨"table", ⟨0, 0, 10, 10⟩, "", 2⟩] ∧
    async_process_element_batch (fun _ _ => Except.error ())
        ([⟨(0, 0, 1, 1), ⟨0, 0, 1, 1⟩, 0⟩] ++ [⟨(0, 0, 2, 2), ⟨0, 0, 2, 2⟩, 1⟩])
        "Read text in the image." 1 =
      async_process_element_batch (fun _ _ => Except.error ())
          [⟨(0, 0, 1, 1), ⟨0, 0, 1, 1⟩, 0⟩] "Read text in the image." 1 ++
        async_process_element_batch (fun _ _ => Except.error ())
          [⟨(0, 0, 2, 2), ⟨0, 0, 2, 2⟩, 1⟩] "Read text in the image." 1 :=
  ⟨chunk_failure_degradation.1 [⟨"id0", "table", ⟨0, 0, 10, 10⟩, 2, (0, 0, 10, 10)⟩]
      "Parse the table in the image." 16 true (by decide),
   chunk_failure_degradation.2.1 [⟨(0, 0, 10, 10), ⟨0, 0, 10, 10⟩, 2⟩]
      "Read text in the image." 1 (by decide),
   chunk_failure_degradation.2.2.1 [⟨(0, 0, 10, 10), ⟨0, 0, 10, 10⟩, 2, "table"⟩]
      "Parse the table in the image." 16 (by decide),
   chunk_failure_degradation.2.2.2.2.1 (fun _ _ => Except.error ())
      [⟨(0, 0, 1, 1), ⟨0, 0, 1, 1⟩, 0⟩] [⟨(0, 0, 2, 2), ⟨0, 0, 2, 2⟩, 1⟩]
      "Read text in the image." 1 (by decide) (by decide)⟩

/-- C9: on a successful chunk the dispatcher pairs the returned texts
with the chunk's pending elements strictly by position (`zip`), emitting
one element per pair: the output of a chunk has `min` length, so when
the recognition interface returns fewer texts than elements, the surplus
pending elements are silently dropped (position `i` of the output exists
exactly when both `batch[i]` and `texts[i]` exist). -/
theorem dispatcher_zip_truncation :
    (∀ (texts : List String) (x : PendingElem) (xs : List PendingElem)
        (prompt : String) (b : ℕ), 0 < b → (x :: xs).length ≤ b →
      (async_process_element_batch (fun _ _ => Except.ok texts)
          (x :: xs) prompt b).length = min (x :: xs).length texts.length) ∧
    (∀ (texts : List String) (x : PendingDict) (xs : List PendingDict)
        (prompt : String) (b : ℕ) (ic : Bool), 0 < b → (x :: xs).length ≤ b →
      (enhanced_process_element_batch (fun _ _ => Except.ok texts)
          (x :: xs) prompt b ic).length = min (x :: xs).length texts.length) ∧
    (∀ (texts : List String) (x : PendingElem) (xs : List PendingElem)
        (prompt : String) (b : ℕ) (i : ℕ), 0 < b → (x :: xs).length ≤ b →
      (async_process_element_batch (fun _ _ => Except.ok texts)
          (x :: xs) prompt b)[i]? =
        ((x :: xs)[i]?.bind (fun e => texts[i]?.map (fun t =>
          (⟨if containsSub "table".data (prompt.data.map Char.toLower) then
              ElementType.table else ElementType.text,
            e.bbox, t, 0, e.reading_order, []⟩ : DocumentElement))))) := by
  refine ⟨fun texts x xs prompt b hb hlen => ?_,
    fun texts x xs prompt b ic hb hlen => ?_,
    fun texts x xs prompt b i hb hlen => ?_⟩
  · unfold async_process_element_batch
    rw [chunksOf_small hb x xs hlen]
    simp [List.length_zip]
  · unfold enhanced_process_element_batch
    rw [chunksOf_small hb x xs hlen]
    simp [List.length_zip]
  · unfold async_process_element_batch
    rw [chunksOf_small hb x xs hlen]
    simp only [List.map_cons, List.map_nil, List.flatten_cons,
      List.flatten_nil, List.append_nil, List.getElem?_map, List.zip,
      List.getElem?_zipWith']
    cases (x :: xs)[i]? with
    | none => rfl
    | some e =>
      cases texts[i]? with
      | none => rfl
      | some t => rfl

/-- Witness for `dispatcher_zip_truncation`: a chunk of two elements
with only one returned text yields one element (the second pending
element is dropped), at position 0 paired with the first text. -/
theorem dispatcher_zip_truncation_witness :
    (async_process_element_batch (fun _ _ => Except.ok ["hello"])
        [⟨(0, 0, 1, 1), ⟨0, 0, 1, 1⟩, 0⟩, ⟨(0, 0, 2, 2), ⟨0, 0, 2, 2⟩, 1⟩]
        "Read text in the image." 16).length = 1 ∧
    (async_process_element_batch (fun _ _ => Except.ok ["hello"])
        [⟨(0, 0, 1, 1), ⟨0, 0, 1, 1⟩, 0⟩, ⟨(0, 0, 2, 2), ⟨0, 0, 2, 2⟩, 1⟩]
        "Read text in the image." 16)[1]? = none :=
  ⟨by
    rw [dispatcher_zip_truncation.1 ["hello"] ⟨(0, 0, 1, 1), ⟨0, 0, 1, 1⟩, 0⟩
      [⟨(0, 0, 2, 2), ⟨0, 0, 2, 2⟩, 1⟩] "Read text in the image." 16
      (by decide) (by decide)]
    decide,
   by
    rw [dispatcher_zip_truncation.2.2 ["hello"] ⟨(0, 0, 1, 1), ⟨0, 0, 1, 1⟩, 0⟩
      [⟨(0, 0, 2, 2), ⟨0, 0, 2, 2⟩, 1⟩] "Read text in the image." 16 1
      (by decide) (by decide)]
    decide⟩

/-! ## The async page pipeline (`src/engines/async_dolphin.py` lines
253-343) -/

/-- Non-emptiness of the numpy crop `padded_image[y1:y2, x1:x2]` (lines
292-293 of `src/engines/async_dolphin.py`): the slice bounds (all
nonnegative here) are clamped to the array shape, so `cropped.size > 0`
exactly when both clamped index ranges are nonempty. -/
def crop_size_pos (dims : ImageDimensions) (c : Coords8) : Bool :=
  decide (min c.py1 dims.padded_h < min c.py2 dims.padded_h) &&
    decide (min c.px1 dims.padded_w < min c.px2 dims.padded_w)

/-- The original-space bounding box `[orig_x1, orig_y1, orig_x2,
orig_y2]` stored into the produced elements (the model stores the box as
a float list). -/
def orig_box (c : Coords8) : Box :=
  ⟨(c.ox1 : ℚ), (c.oy1 : ℚ), (c.ox2 : ℚ), (c.oy2 : ℚ)⟩

/-- The figure `DocumentElement` built at lines 296-301 (empty text,
default confidence and metadata, current reading order). -/
def figElem (dims : ImageDimensions) (bbox : List ℚ) (ro : ℕ) : DocumentElement :=
  ⟨ElementType.figure, orig_box (process_coordinates bbox dims), "", 0, ro, []⟩

/-- The pending element dict built at lines 304-309; the crop is the
padded-space box that was sliced out. -/
def pendElem (dims : ImageDimensions) (bbox : List ℚ) (ro : ℕ) : PendingElem :=
  ⟨((process_coordinates bbox dims).px1, (process_coordinates bbox dims).py1,
    (process_coordinates bbox dims).px2, (process_coordinates bbox dims).py2),
   orig_box (process_coordinates bbox dims), ro⟩

/-- The classification loop of `AsyncDolphinEngine._process_elements`
(lines 276-321): walk the parsed layout entries with the
`reading_order` counter (incremented once per entry, also for entries
whose crop is empty; no step of the embedded loop body can raise, so
the `except: continue` is unreachable) and distribute the entries with
nonempty crops into the figure / text / table buckets, preserving
order. -/
def classify_elements (dims : ImageDimensions) :
    ℕ → List (List ℚ × String) →
      List DocumentElement × List PendingElem × List PendingElem
  | _, [] => ([], [], [])
  | ro, (bbox, label) :: rest =>
    if crop_size_pos dims (process_coordinates bbox dims) then
      if label = "fig" then
        (figElem dims bbox ro :: (classify_elements dims (ro + 1) rest).1,
         (classify_elements dims (ro + 1) rest).2.1,
         (classify_elements dims (ro + 1) rest).2.2)
      else if label = "tab" then
        ((classify_elements dims (ro + 1) rest).1,
         (classify_elements dims (ro + 1) rest).2.1,
         pendElem dims bbox ro :: (classify_elements dims (ro + 1) rest).2.2)
      else
        ((classify_elements dims (ro + 1) rest).1,
         pendElem dims bbox ro :: (classify_elements dims (ro + 1) rest).2.1,
         (classify_elements dims (ro + 1) rest).2.2)
    else classify_elements dims (ro + 1) rest

/-- `AsyncDolphinEngine._process_elements(layout_results, padded_image,
dims, max_batch_size)` (lines 253-343): parse the layout string,
classify into buckets, recognise the text bucket with the prompt
"Read text in the image." and the table bucket with "Parse the table in
the image." (an empty bucket issues no call and contributes nothing,
exactly like the `if text_elements:` guards), concatenate
figures ++ text results ++ table results, and sort by reading order. -/
def _process_elements (chat : ChatOracle) (layout_results : String)
    (dims : ImageDimensions) (max_batch_size : ℕ) : List DocumentElement :=
  sortByRo
    ((classify_elements dims 0 (parse_layout_string layout_results)).1 ++
      async_process_element_batch chat
        (classify_elements dims 0 (parse_layout_string layout_results)).2.1
        "Read text in the image." max_batch_size ++
      async_process_element_batch chat
        (classify_elements dims 0 (parse_layout_string layout_results)).2.2
        "Parse the table in the image." max_batch_size)

instance : IsTotal DocumentElement (fun a b => a.reading_order ≤ b.reading_order) :=
  ⟨fun a b => Nat.le_total a.reading_order b.reading_order⟩

instance : IsTrans DocumentElement (fun a b => a.reading_order ≤ b.reading_order) :=
  ⟨fun _ _ _ hab hbc => Nat.le_trans hab hbc⟩

lemma mem_sortByRo {e : DocumentElement} {l : List DocumentElement} :
    e ∈ sortByRo l ↔ e ∈ l :=
  (List.perm_insertionSort _ l).mem_iff

lemma mem_chunk_mem {α : Type} {b : ℕ} (hb : 0 < b) {l ch : List α}
    (hch : ch ∈ chunksOf b l) {x : α} (hx : x ∈ ch) : x ∈ l := by
  rw [← chunksOf_flatten hb l.length l (le_refl _)]
  exact List.mem_flatten.2 ⟨ch, hch, hx⟩

/-- Every element emitted by the async dispatcher takes its reading
order from some pending input element. -/
lemma async_batch_ro (chat : ChatOracle) {b : ℕ} (hb : 0 < b)
    (es : List PendingElem) (prompt : String) :
    ∀ e ∈ async_process_element_batch chat es prompt b,
      ∃ p ∈ es, e.reading_order = p.reading_order := by
  intro e he
  unfold async_process_element_batch at he
  rw [List.mem_flatten] at he
  obtain ⟨out, hout, heo⟩ := he
  rw [List.mem_map] at hout
  obtain ⟨ch, hch, hcheq⟩ := hout
  rw [← hcheq] at heo
  simp only at heo
  rcases hchat : chat (List.replicate (ch.map (fun p => p.crop)).length prompt)
      (ch.map (fun p => p.crop)) with u | texts
  all_goals rw [hchat] at heo
  · simp only at heo
    rw [List.mem_map] at heo
    obtain ⟨p, hp, hpe⟩ := heo
    exact ⟨p, mem_chunk_mem hb hch hp, by rw [← hpe]⟩
  · simp only at heo
    rw [List.mem_map] at heo
    obtain ⟨⟨p, t⟩, hp, hpe⟩ := heo
    exact ⟨p, mem_chunk_mem hb hch (List.of_mem_zip hp).1, by rw [← hpe]⟩

/-- Reading orders assigned by the classification loop started at
counter value `ro` on `l` entries lie in `[ro, ro + l.length)`. -/
lemma classify_elements_ros (dims : ImageDimensions) :
    ∀ (l : List (List ℚ × String)) (ro : ℕ),
      (∀ e ∈ (classify_elements dims ro l).1,
        ro ≤ e.reading_order ∧ e.reading_order < ro + l.length) ∧
      (∀ p ∈ (classify_elements dims ro l).2.1,
        ro ≤ p.reading_order ∧ p.reading_order < ro + l.length) ∧
      (∀ p ∈ (classify_elements dims ro l).2.2,
        ro ≤ p.reading_order ∧ p.reading_order < ro + l.length) := by
  intro l
  induction l with
  | nil =>
    intro ro
    refine ⟨?_, ?_, ?_⟩ <;> intro x hx <;> simp [classify_elements] at hx
  | cons hd rest ih =>
    intro ro
    obtain ⟨ih1, ih2, ih3⟩ := ih (ro + 1)
    obtain ⟨bbox, label⟩ := hd
    simp only [classify_elements, List.length_cons]
    split_ifs with hcrop hfig htab
    · refine ⟨?_, ?_, ?_⟩
      · intro e he
        rcases List.mem_cons.1 he with h | h
        · have : e.reading_order = ro := by rw [h]; rfl
          omega
        · obtain ⟨h1, h2⟩ := ih1 e h
          omega
      · intro p hp
        obtain ⟨h1, h2⟩ := ih2 p hp
        omega
      · intro p hp
        obtain ⟨h1, h2⟩ := ih3 p hp
        omega
    · refine ⟨?_, ?_, ?_⟩
      · intro e he
        obtain ⟨h1, h2⟩ := ih1 e he
        omega
      · intro p hp
        obtain ⟨h1, h2⟩ := ih2 p hp
        omega
      · intro p hp
        rcases List.mem_cons.1 hp with h | h
        · have : p.reading_order = ro := by rw [h]; rfl
          omega
        · obtain ⟨h1, h2⟩ := ih3 p h
          omega
    · refine ⟨?_, ?_, ?_⟩
      · intro e he
        obtain ⟨h1, h2⟩ := ih1 e he
        omega
      · intro p hp
        rcases List.mem_cons.1 hp with h | h
        · have : p.reading_order = ro := by rw [h]; rfl
          omega
        · obtain ⟨h1, h2⟩ := ih2 p h
          omega
      · intro p hp
        obtain ⟨h1, h2⟩ := ih3 p hp
        omega
    · refine ⟨?_, ?_, ?_⟩
      · intro e he
        obtain ⟨h1, h2⟩ := ih1 e he
        omega
      · intro p hp
        obtain ⟨h1, h2⟩ := ih2 p hp
        omega
      · intro p hp
        obtain ⟨h1, h2⟩ := ih3 p hp
        omega

/-- C5: reading-order invariants of the async pipeline and the text
merger. (1) The final element list of `_process_elements` is sorted with
non-decreasing `reading_order`. (2) Every output element's reading order
is one of the counter values `0 .. n-1` assigned during layout parsing,
where `n` is the number of parsed layout entries (no invented values).
(3) Every element surviving `merge_text_blocks` carries the reading
order of some input element (merging never renumbers a survivor).
(4) The element merged from a group of two or more keeps the minimum
reading order of its constituents, which is attained by one of them. -/
theorem pipeline_reading_order :
    (∀ (chat : ChatOracle) (layout : String) (dims : ImageDimensions) (b : ℕ),
      List.Sorted (fun x y => x.reading_order ≤ y.reading_order)
        (_process_elements chat layout dims b)) ∧
    (∀ (chat : ChatOracle) (layout : String) (dims : ImageDimensions) (b : ℕ),
      0 < b → ∀ e ∈ _process_elements chat layout dims b,
        e.reading_order < (parse_layout_string layout).length) ∧
    (∀ (es : List DocumentElement) (T : ℚ), ∀ e ∈ merge_text_blocks es T,
      ∃ e0 ∈ es, e.reading_order = e0.reading_order) ∧
    (∀ (x y : DocumentElement) (t : List DocumentElement),
      (∀ e ∈ x :: y :: t,
        (_merge_element_group (x :: y :: t)).reading_order ≤ e.reading_order) ∧
      ∃ e ∈ x :: y :: t,
        (_merge_element_group (x :: y :: t)).reading_order = e.reading_order) := by
  refine ⟨fun chat layout dims b => ?_, fun chat layout dims b hb e he => ?_,
    fun es T e he => ?_, fun x y t => ⟨fun e he => ?_, ?_⟩⟩
  · unfold _process_elements sortByRo
    exact List.sorted_insertionSort _ _
  · unfold _process_elements at he
    rw [mem_sortByRo] at he
    rcases List.mem_append.1 he with h | h
    · rcases List.mem_append.1 h with h | h
      · obtain ⟨h1, h2⟩ :=
          (classify_elements_ros dims (parse_layout_string layout) 0).1 e h
        omega
      · obtain ⟨p, hp, hpe⟩ := async_batch_ro chat hb _ _ e h
        obtain ⟨h1, h2⟩ :=
          (classify_elements_ros dims (parse_layout_string layout) 0).2.1 p hp
        omega
    · obtain ⟨p, hp, hpe⟩ := async_batch_ro chat hb _ _ e h
      obtain ⟨h1, h2⟩ :=
        (classify_elements_ros dims (parse_layout_string layout) 0).2.2 p hp
      omega
  · simp only [merge_text_blocks] at he
    split_ifs at he with h1 h2
    · exact ⟨e, he, rfl⟩
    · exact ⟨e, he, rfl⟩
    · rw [mem_sortByRo] at he
      rcases List.mem_append.1 he with h | h
      · rw [List.mem_flatten] at h
        obtain ⟨out, hout, heo⟩ := h
        rw [List.mem_map] at hout
        obtain ⟨g, hg, hge⟩ := hout
        rw [← hge] at heo
        unfold emit_group at heo
        split_ifs at heo with hlen
        · rw [List.mem_singleton] at heo
          subst heo
          cases g with
          | nil => simp at hlen
          | cons a g2 =>
            cases g2 with
            | nil => simp at hlen
            | cons b2 t2 =>
              have hmem := foldl_min_mem_map
                (fun el => el.reading_order) a (b2 :: t2)
              rw [List.mem_map] at hmem
              obtain ⟨e0, he0, he0eq⟩ := hmem
              refine ⟨e0, ?_, ?_⟩
              · have hfl : e0 ∈ (group_runs T (sortByRo (es.filter
                    (fun x => x.element_type == ElementType.text)))).flatten :=
                  List.mem_flatten.2 ⟨_, hg, he0⟩
                rw [group_runs_flatten, mem_sortByRo] at hfl
                exact List.mem_of_mem_filter hfl
              · rw [meg_reading_order, ← he0eq]
        · refine ⟨e, ?_, rfl⟩
          have hfl : e ∈ (group_runs T (sortByRo (es.filter
              (fun x => x.element_type == ElementType.text)))).flatten :=
            List.mem_flatten.2 ⟨g, hg, heo⟩
          rw [group_runs_flatten, mem_sortByRo] at hfl
          exact List.mem_of_mem_filter hfl
      · exact ⟨e, List.mem_of_mem_filter h, rfl⟩
  · rw [meg_reading_order]
    exact foldl_min_le_of_mem (fun el => el.reading_order) x (y :: t) e he
  · have hmem := foldl_min_mem_map (fun el => el.reading_order) x (y :: t)
    rw [List.mem_map] at hmem
    obtain ⟨e0, he0, he0eq⟩ := hmem
    exact ⟨e0, he0, by rw [meg_reading_order, ← he0eq]⟩

/-- Witness for `pipeline_reading_order` on a concrete two-element
layout (one text, one table entry, both crops nonempty): the pipeline
emits two elements and both reading orders are below the parse count. -/
theorem pipeline_reading_order_witness :
    0 < 16 ∧
    (∀ e ∈ _process_elements (fun _ _ => Except.ok ["a", "b"])
        "[0.1,0.1,0.3,0.2] text [0.4,0.5,0.6,0.7] tab" ⟨100, 100, 100, 100⟩ 16,
      e.reading_order <
        (parse_layout_string
          "[0.1,0.1,0.3,0.2] text [0.4,0.5,0.6,0.7] tab").length) ∧
    (_process_elements (fun _ _ => Except.ok ["a", "b"])
        "[0.1,0.1,0.3,0.2] text [0.4,0.5,0.6,0.7] tab"
        ⟨100, 100, 100, 100⟩ 16).map (fun e => e.reading_order) = [0, 1] :=
  ⟨by decide,
   pipeline_reading_order.2.1 (fun _ _ => Except.ok ["a", "b"])
     "[0.1,0.1,0.3,0.2] text [0.4,0.5,0.6,0.7] tab" ⟨100, 100, 100, 100⟩ 16
     (by decide),
   by decide⟩

/-! ## Result assemblers (`src/utils/parsing_utils.py` lines 36-130 and
`src/api/enhanced_main.py` lines 461-565) -/

/-- Python `str.strip()` on a `String`. -/
def pyStripS (s : String) : String := String.mk (pyStrip s.data)

/-- Round-half-even to an integer (the rounding of Python's `round` and
of the `format` mini-language; on the embedded exact rationals the
half-way ties that binary floats almost never hit are resolved the same
way Python resolves exact decimal ties). -/
def round_half_even (q : ℚ) : ℤ :=
  if q - ⌊q⌋ < 1 / 2 then ⌊q⌋
  else if 1 / 2 < q - ⌊q⌋ then ⌊q⌋ + 1
  else if ⌊q⌋ % 2 = 0 then ⌊q⌋ else ⌊q⌋ + 1

/-- Python `round(t, 2)`. -/
def py_round2 (q : ℚ) : ℚ := (round_half_even (q * 100) : ℚ) / 100

/-- Python `f"{q:.2f}"`: fixed two-decimal rendering after
round-half-even at the second decimal. -/
def fmt2 (q : ℚ) : String :=
  (if round_half_even (q * 100) < 0 then "-" else "") ++
    toString ((round_half_even (q * 100)).natAbs / 100) ++ "." ++
    (if (round_half_even (q * 100)).natAbs % 100 < 10 then "0" else "") ++
    toString ((round_half_even (q * 100)).natAbs % 100)

/-- Rendering of one coordinate for the `data-bbox` attribute.  Python
interpolates `repr` of the float list; the embedding renders the exact
rational canonically, which differs from the float `repr` only in
formatting, never between two distinct values. -/
def reprQ (q : ℚ) : String :=
  if q.den = 1 then toString q.num ++ ".0"
  else toString q.num ++ "/" ++ toString q.den

/-- Rendering of the `bbox` float list (`str(bbox)`). -/
def reprBox (b : Box) : String :=
  "[" ++ reprQ b.x1 ++ ", " ++ reprQ b.y1 ++ ", " ++ reprQ b.x2 ++ ", " ++
    reprQ b.y2 ++ "]"

/-- The markdown lines contributed by one element (`generate_markdown`
loop body, `src/utils/parsing_utils.py` lines 51-91): text elements with
non-blank strip emit their stripped text and a blank line; tables emit a
heading and either the markdown table or a fenced block; figures emit a
placeholder; formulas emit a heading and the `$$`-wrapped stripped text;
any other type emits nothing. -/
def md_element (e : EDict) : List String :=
  if e.type = "text" then
    if pyStripS e.text ≠ "" then [pyStripS e.text, ""] else []
  else if e.type = "table" then
    if pyStripS e.text ≠ "" then
      ["### Table", ""] ++
        (if containsSub "|".data e.text.data then [pyStripS e.text]
         else ["```" ++ "\n" ++ pyStripS e.text ++ "\n" ++ "```"]) ++ [""]
    else []
  else if e.type = "figure" then ["### Figure", "", "*[Figure content]*", ""]
  else if e.type = "formula" then
    if pyStripS e.text ≠ "" then
      ["### Formula", ""] ++
        [if startsWithChars "$$".data (pyStripS e.text).data then pyStripS e.text
         else "$$" ++ pyStripS e.text ++ "$$"] ++ [""]
    else []
  else []

/-- `generate_markdown(elements)` from `src/utils/parsing_utils.py`
lines 36-93: sort by reading order (Python's stable `sorted`), emit the
per-element parts, join with newlines and strip. -/
def generate_markdown (elements : List EDict) : String :=
  pyStripS (String.intercalate "\n" ((sortByRoD elements).map md_element).flatten)

/-- The dictionary returned by `generate_json_output`
(`src/utils/parsing_utils.py` lines 96-130): the `document_info` header
fields and the projected element dicts in reading order (`confidence`
defaulted to `0.0` where absent). -/
structure JsonOut where
  total_elements : ℕ
  processing_time : ℚ
  count_text : ℕ
  count_table : ℕ
  count_figure : ℕ
  count_formula : ℕ
  elements : List (String × String × Box × String × ℚ × ℕ × List (String × MetaVal))
deriving Repr

/-- `generate_json_output(elements, processing_time)` from
`src/utils/parsing_utils.py` lines 96-130. -/
def generate_json_output (elements : List EDict) (processing_time : ℚ) : JsonOut :=
  ⟨elements.length, py_round2 processing_time,
   (elements.filter (fun e => e.type == "text")).length,
   (elements.filter (fun e => e.type == "table")).length,
   (elements.filter (fun e => e.type == "figure")).length,
   (elements.filter (fun e => e.type == "formula")).length,
   (sortByRoD elements).map (fun e =>
     (e.element_id, e.type, e.bbox, e.text, e.confidence.getD 0,
      e.reading_order, e.metadata))⟩

/-- The cells-only separator test of `_markdown_table_to_html`
(`set(cell.strip()) <= \x7b'-', ':', ' '\x7d`). -/
def sep_cell (cl : List Char) : Bool :=
  cl.all (fun c => c == '-' || c == ':' || c == ' ')

/-- One line of `_markdown_table_to_html` (`src/api/enhanced_main.py`
lines 552-562): pipe-delimited lines become rows of stripped cells
(header cells for the first line), the separator line at index 1 is
skipped, any other line is skipped. -/
def mdt_row (i : ℕ) (line : String) : List String :=
  if startsWithChars "|".data line.data && line.data.getLast? == some '|' then
    if i == 1 && (((line.data.drop 1).dropLast.splitOn '|').map pyStrip).all sep_cell
    then []
    else
      "    <tr>" ::
        ((((line.data.drop 1).dropLast.splitOn '|').map pyStrip).map (fun c =>
          "        <" ++ (if i == 0 then "th" else "td") ++ ">" ++ String.mk c ++
            "</" ++ (if i == 0 then "th" else "td") ++ ">")) ++ ["    </tr>"]
  else []

/-- The enumerated row loop of `_markdown_table_to_html`. -/
def mdt_rows : ℕ → List String → List String
  | _, [] => []
  | i, line :: rest => mdt_row i line ++ mdt_rows (i + 1) rest

/-- `xDANVisionEngine._markdown_table_to_html(markdown_table)` from
`src/api/enhanced_main.py` lines 544-565. -/
def _markdown_table_to_html (markdown_table : String) : String :=
  if (((markdown_table.splitOn "\n").map pyStripS).filter
      (fun l => l ≠ "")).isEmpty then "<table></table>"
  else
    String.intercalate "\n"
      ("<table>" ::
        mdt_rows 0 (((markdown_table.splitOn "\n").map pyStripS).filter
          (fun l => l ≠ "")) ++ ["</table>"])

/-- The fixed HTML prologue of `_generate_html`
(`src/api/enhanced_main.py` lines 463-497). -/
def html_header : List String :=
  ["<!DOCTYPE html>",
   "<html lang='zh-CN'>",
   "<head>",
   "    <meta charset='UTF-8'>",
   "    <meta name='viewport' content='width=device-width, initial-scale=1.0'>",
   "    <title>xDAN Vision Document Analysis Result</title>",
   "    <style>",
   "        .document-container \x7b max-width: 800px; margin: 0 auto; padding: 20px; \x7d",
   "        .header \x7b text-align: center; margin-bottom: 30px; \x7d",
   "        .element \x7b margin: 15px 0; padding: 10px; border-left: 3px solid #007acc; \x7d",
   "        .text-element \x7b font-family: Arial, sans-serif; background-color: #f8f9fa; \x7d",
   "        .table-element \x7b background-color: #fff3cd; \x7d",
   "        .figure-element \x7b text-align: center; background-color: #d1ecf1; \x7d",
   "        .formula-element \x7b text-align: center; background-color: #d4edda; \x7d",
   "        .confidence-indicator \x7b ",
   "            display: inline-block; width: 10px; height: 10px; ",
   "            border-radius: 50%; margin-right: 8px; ",
   "        \x7d",
   "        .high-confidence \x7b background-color: #28a745; \x7d",
   "        .medium-confidence \x7b background-color: #ffc107; \x7d",
   "        .low-confidence \x7b background-color: #dc3545; \x7d",
   "        table \x7b border-collapse: collapse; width: 100%; \x7d",
   "        th, td \x7b border: 1px solid #ddd; padding: 8px; text-align: left; \x7d",
   "        th \x7b background-color: #f2f2f2; \x7d",
   "    </style>",
   "</head>",
   "<body>",
   "    <div class='document-container'>",
   "        <div class='header'>",
   "            <h1>📄 xDAN Vision 文档分析结果</h1>",
   "            <p>智能文档识别与结构化解析</p>",
   "        </div>"]

/-- The HTML lines contributed by one element (`_generate_html` loop
body, `src/api/enhanced_main.py` lines 499-533): the element container
with its bbox, the confidence indicator with its three-tier class
(high at `>= 0.8`, medium at `>= 0.5`, low below), and the
type-specific body. -/
def html_element (e : EDict) : List String :=
  ["        <div class=\"element " ++ e.type ++ "-element\" data-bbox=\"" ++
     reprBox e.bbox ++ "\">",
   "            <span class=\"confidence-indicator " ++
     (if 8 / 10 ≤ e.confidence.getD 0 then "high-confidence"
      else if 5 / 10 ≤ e.confidence.getD 0 then "medium-confidence"
      else "low-confidence") ++
     "\" title=\"Confidence: " ++ fmt2 (e.confidence.getD 0) ++ "\"></span>"] ++
  (if e.type = "text" then ["            <p>" ++ e.text ++ "</p>"]
   else if e.type = "table" then
     (if containsSub "|".data e.text.data then
        ["            " ++ _markdown_table_to_html e.text]
      else ["            <pre class='table-content'>" ++ e.text ++ "</pre>"])
   else if e.type = "figure" then
     ["            <div class='figure-placeholder'>",
      "                📊 <strong>图表/图像</strong>"] ++
       (if e.text ≠ "" then ["                <p>" ++ e.text ++ "</p>"] else []) ++
       ["            </div>"]
   else if e.type = "formula" then
     ["            <div class='formula'>📐 <code>" ++ e.text ++ "</code></div>"]
   else []) ++
  ["        </div>"]

/-- `xDANVisionEngine._generate_html(elements)` from
`src/api/enhanced_main.py` lines 461-542: prologue, the per-element
blocks in reading order, epilogue, joined with newlines. -/
def _generate_html (elements : List EDict) : String :=
  String.intercalate "\n"
    (html_header ++ ((sortByRoD elements).map html_element).flatten ++
      ["    </div>", "</body>", "</html>"])

instance : IsTotal EDict (fun a b => a.reading_order ≤ b.reading_order) :=
  ⟨fun a b => Nat.le_total a.reading_order b.reading_order⟩

instance : IsTrans EDict (fun a b => a.reading_order ≤ b.reading_order) :=
  ⟨fun _ _ _ hab hbc => Nat.le_trans hab hbc⟩

/-- Two sorted-by-reading-order lists that are permutations of each
other and have pairwise distinct reading orders are equal. -/
lemma sorted_nodup_unique :
    ∀ l₁ l₂ : List EDict, l₁.Perm l₂ →
      (l₁.map (fun e => e.reading_order)).Nodup →
      List.Sorted (fun a b => a.reading_order ≤ b.reading_order) l₁ →
      List.Sorted (fun a b => a.reading_order ≤ b.reading_order) l₂ →
      l₁ = l₂ := by
  intro l₁
  induction l₁ with
  | nil =>
    intro l₂ hperm _ _ _
    exact hperm.nil_eq
  | cons x t₁ ih =>
    intro l₂ hperm hnd hs₁ hs₂
    cases l₂ with
    | nil => exact (List.cons_ne_nil x t₁ hperm.eq_nil).elim
    | cons y t₂ =>
      have hxmem : x ∈ y :: t₂ := hperm.subset (List.mem_cons_self x t₁)
      have hymem : y ∈ x :: t₁ := hperm.symm.subset (List.mem_cons_self y t₂)
      obtain ⟨hall₁, hs₁t⟩ := List.sorted_cons.1 hs₁
      obtain ⟨hall₂, hs₂t⟩ := List.sorted_cons.1 hs₂
      simp only [List.map_cons] at hnd
      obtain ⟨hnx, hndt⟩ := List.nodup_cons.1 hnd
      have hxy : x = y := by
        rcases List.mem_cons.1 hxmem with h | hx2
        · exact h
        rcases List.mem_cons.1 hymem with h | hy2
        · exact h.symm
        have heq : x.reading_order = y.reading_order :=
          le_antisymm (hall₁ y hy2) (hall₂ x hx2)
        refine absurd ?_ hnx
        rw [heq]
        exact List.mem_map_of_mem (fun e => e.reading_order) hy2
      subst hxy
      rw [ih t₂ hperm.cons_inv hndt hs₁t hs₂t]

/-- Sorting by reading order is order-insensitive on inputs with
pairwise distinct reading orders. -/
lemma sortByRoD_congr {es es' : List EDict} (hperm : es.Perm es')
    (hnd : (es.map (fun e => e.reading_order)).Nodup) :
    sortByRoD es = sortByRoD es' := by
  unfold sortByRoD
  apply sorted_nodup_unique
  · exact ((List.perm_insertionSort
        (fun a b : EDict => a.reading_order ≤ b.reading_order) es).trans
      hperm).trans (List.perm_insertionSort
        (fun a b : EDict => a.reading_order ≤ b.reading_order) es').symm
  · exact ((List.Perm.map (fun e => e.reading_order)
      (List.perm_insertionSort
        (fun a b : EDict => a.reading_order ≤ b.reading_order) es)).nodup_iff).2 hnd
  · exact List.sorted_insertionSort _ es
  · exact List.sorted_insertionSort _ es'

/-- C8: order uniformity and determinism of the result assembler.
(1) For every element list there is one list, a permutation of the input
sorted by reading order, through which all three representations render:
the markdown parts, the HTML element blocks and the JSON `elements`
array all traverse exactly that list, so the three representations
reflect the identical element order.  (2) The assembly is
order-deterministic: on two input lists that are permutations of each
other (e.g. the same list before and after an in-place reordering) with
pairwise distinct reading orders, all three outputs coincide; with the
embedded functions pure, running them twice on the same list trivially
reproduces this output, and no assembler mutates its input (each sorts
via Python's copying `sorted`, not `list.sort`). -/
theorem assembler_order_determinism :
    (∀ (es : List EDict) (t : ℚ), ∃ sorted : List EDict,
      sorted.Perm es ∧
      List.Sorted (fun a b => a.reading_order ≤ b.reading_order) sorted ∧
      generate_markdown es =
        pyStripS (String.intercalate "\n" (sorted.map md_element).flatten) ∧
      _generate_html es = String.intercalate "\n"
        (html_header ++ (sorted.map html_element).flatten ++
          ["    </div>", "</body>", "</html>"]) ∧
      (generate_json_output es t).elements = sorted.map (fun e =>
        (e.element_id, e.type, e.bbox, e.text, e.confidence.getD 0,
         e.reading_order, e.metadata))) ∧
    (∀ (es es' : List EDict) (t : ℚ), es.Perm es' →
      (es.map (fun e => e.reading_order)).Nodup →
      generate_markdown es = generate_markdown es' ∧
      _generate_html es = _generate_html es' ∧
      generate_json_output es t = generate_json_output es' t) := by
  constructor
  · intro es t
    exact ⟨sortByRoD es, List.perm_insertionSort _ es,
      List.sorted_insertionSort _ es, rfl, rfl, rfl⟩
  · intro es es' t hperm hnd
    have hsort := sortByRoD_congr hperm hnd
    have hc : ∀ p : EDict → Bool, (es.filter p).length = (es'.filter p).length := by
      intro p
      rw [← List.countP_eq_length_filter, ← List.countP_eq_length_filter]
      exact hperm.countP_eq p
    refine ⟨?_, ?_, ?_⟩
    · unfold generate_markdown
      rw [hsort]
    · unfold _generate_html
      rw [hsort]
    · unfold generate_json_output
      rw [hsort, hperm.length_eq, hc (fun e => e.type == "text"),
        hc (fun e => e.type == "table"), hc (fun e => e.type == "figure"),
        hc (fun e => e.type == "formula")]

/-- First element of the C8 witness list. -/
def c8a : EDict := ⟨"e0", "text", ⟨0, 0, 10, 10⟩, "hello", some (9 / 10), 0, []⟩

/-- Second element of the C8 witness list. -/
def c8b : EDict :=
  ⟨"e1", "table", ⟨0, 20, 10, 30⟩, "| a | b |\n| 1 | 2 |", some (6 / 10), 1, []⟩

/-- Witness for `assembler_order_determinism`: the two orderings of a
concrete two-element list assemble to identical markdown, HTML and JSON
outputs. -/
theorem assembler_order_determinism_witness :
    List.Perm [c8b, c8a] [c8a, c8b] ∧
    generate_markdown [c8b, c8a] = generate_markdown [c8a, c8b] ∧
    _generate_html [c8b, c8a] = _generate_html [c8a, c8b] ∧
    generate_json_output [c8b, c8a] (3 / 2) =
      generate_json_output [c8a, c8b] (3 / 2) :=
  ⟨by decide, assembler_order_determinism.2 [c8b, c8a] [c8a, c8b] (3 / 2)
    (by decide) (by decide)⟩

end SmartDoc
